import Mathlib

/-!
# Compact bitmask trie (`source/trie.c`)

A shallow embedding of the trie of `source/trie.c` and a verification of its
insert / lookup contract.

Representation choices.

* A C `char` is modelled by its integer value after promotion to `int`, so the
  functions below are defined on every `Int`, which covers both a signed and an
  unsigned `char`.
* A key (`const char *`) is the list of the characters that precede the
  terminating NUL, so no element of a key is NUL; the test `*key == '\0'` is
  the test for the empty list and `key + 1` is the tail.
* `uint32_t bitfield` is a `Nat`; the only writes to it are `|= 1` and
  `|= (1 << pos)` for `1 ≤ pos ≤ 31`, which never leave the 32-bit range.  For
  `pos = 31` the operand `1 << 31` is taken as the word `2 ^ 31`, as compilers
  for 32-bit two's complement `int` evaluate it.
* `trie_t **children` is the list of the children; its length is the number of
  slots of the allocated array.  Pointers to nodes are never null here:
  `trie_new` exits the process rather than return a null pointer, and the
  tests `!root` and `!key` of `trie_get` and `trie_insert` are for callers that
  pass a null pointer, which are outside this model.
* A function that would read a slot outside the children array returns `none`;
  `some r` means that the call returns normally with result `r`.
* `trie_insert` mutates the trie in place: the model returns the returned
  `bool` together with the trie after the call.  `trie_get` writes through
  `value_out`: the model takes the old contents of `*value_out` and returns the
  returned `bool` together with the new contents.
-/

namespace Trie

/-- Modelled from the spec: the declaration of `trie_t` is in `trie.h`, which is
not among the sources.  The fields are the three that `trie.c` reads and
writes, with the types of the node of the specification: a 32-bit `bitfield`
(bit 0 is the terminal flag, bit `p` for `1 ≤ p ≤ 31` says that the child for
the symbol of position `p` exists), the integer `value` and the packed
`children` array. -/
inductive trie_t where
  | node (bitfield : Nat) (value : Int) (children : List trie_t)

/-- Field `bitfield` of a node. -/
def trie_t.bitfield : trie_t → Nat
  | .node b _ _ => b

/-- Field `value` of a node. -/
def trie_t.value : trie_t → Int
  | .node _ v _ => v

/-- Field `children` of a node. -/
def trie_t.children : trie_t → List trie_t
  | .node _ _ cs => cs

/-- The function `get_bit_pos` (trie.c, lines 18-29).  The character constants are
`'A' = 65`, `'Z' = 90`, `'_' = 95`, `'.' = 46`, `'-' = 45`, apostrophe `= 39`
and space `= 32`. -/
def get_bit_pos (symbol : Int) : Int :=
  if 65 ≤ symbol ∧ symbol ≤ 90 then 90 - symbol + 1
  else if symbol = 95 then 90 - 65 + 2
  else if symbol = 46 then 90 - 65 + 3
  else if symbol = 45 then 90 - 65 + 4
  else if symbol = 39 then 90 - 65 + 5
  else if symbol = 32 then 90 - 65 + 6
  else -1

/-- The function `trie_new` (lines 31-38): `calloc` gives a node whose fields are
all zero and whose children pointer is null (an array of no slots). -/
def trie_new : trie_t := .node 0 0 []

/-- The constant `WORD_SIZE` (line 40). -/
def WORD_SIZE : Nat := 32

/-- The loop of `count_set_bits` (lines 43-46), with `i` iterations left to
run on the current `n` and the running total `set`. -/
def count_set_bits_loop : Nat → Nat → Int → Int
  | 0, _, set => set
  | i + 1, n, set => count_set_bits_loop i (n >>> 1) (set + ((n &&& 1 : Nat) : Int))

/-- The function `count_set_bits` (lines 41-48).  The loop reads the low 32 bits
only. -/
def count_set_bits (n : Nat) : Int := count_set_bits_loop WORD_SIZE n 0

/-- The macro `EXIST_CHILD` (line 9). -/
def EXIST_CHILD (node : trie_t) (pos : Int) : Nat :=
  (node.bitfield >>> pos.toNat) &&& 1

/-- The macro `NO_OF_CHILD` (line 11).  The count is at least the terminal bit,
so the subtraction does not wrap. -/
def NO_OF_CHILD (node : trie_t) : Int :=
  count_set_bits node.bitfield - ((node.bitfield &&& 1 : Nat) : Int)

/-- The macro `GET_CHILD_INDEX` (line 13). -/
def GET_CHILD_INDEX (node : trie_t) (pos : Int) : Int :=
  count_set_bits (node.bitfield >>> pos.toNat) - 1

/-- The read `children[index]`; `none` when the slot is outside the array. -/
def child_at (children : List trie_t) (index : Int) : Option trie_t :=
  if 0 ≤ index then children[index.toNat]? else none

/-- The function `trie_get` (lines 61-84) on a non-null `root` and `key`.  The
third argument is the contents of `*value_out` before the call; the result is
the returned `bool` and the contents of `*value_out` after the call. -/
def trie_get : trie_t → List Int → Int → Option (Bool × Int)
  | root, [], value_out =>
    if root.bitfield &&& 1 ≠ 0 then some (true, root.value)
    else some (false, value_out)
  | root, symbol :: key, value_out =>
    let pos := get_bit_pos symbol
    if pos = -1 then some (false, value_out)
    else if EXIST_CHILD root pos ≠ 0 then
      let index := GET_CHILD_INDEX root pos
      match child_at root.children index with
      | none => none
      | some child => trie_get child key value_out
    else some (false, value_out)

/-- Lines 99-113 of `trie_insert`: the index of the child for `pos`, after the
child has been created when it did not exist.  When it did not exist the bit
is set, the array is reallocated to `child_no` slots, the `child_no - index - 1`
slots from `index` on are moved one place up and a new node is stored at
`index`.  The store is to the slot `index` of the new array and the move reads
the old slots `index` to `child_no - 2`: the result is `none` when `index` is
not a slot of the new array or the slots read are not all slots of the old
array.  Otherwise the result is the node after these lines and the value of
`index` at line 115. -/
def ensure_child (root : trie_t) (pos : Int) : Option (trie_t × Int) :=
  let index := GET_CHILD_INDEX root pos
  if EXIST_CHILD root pos = 0 then
    let bitfield := root.bitfield ||| (1 <<< pos.toNat)
    let child_no := NO_OF_CHILD (.node bitfield root.value root.children)
    let index := GET_CHILD_INDEX (.node bitfield root.value root.children) pos
    if 0 ≤ index ∧ index < child_no ∧ child_no - 1 ≤ root.children.length then
      some (.node bitfield root.value
              (root.children.take index.toNat ++
                trie_new :: (root.children.drop index.toNat).take (child_no - index - 1).toNat),
            index)
    else none
  else some (root, index)

/-- The function `trie_insert` (lines 86-116) on a non-null `root`.  The result
is the returned `bool` and the trie after the call. -/
def trie_insert : trie_t → List Int → Int → Option (Bool × trie_t)
  | root, [], value => some (true, .node (root.bitfield ||| 1) value root.children)
  | root, symbol :: key, value =>
    let pos := get_bit_pos symbol
    if pos = -1 then some (false, root)
    else
      match ensure_child root pos with
      | none => none
      | some (root1, index) =>
        match child_at root1.children index with
        | none => none
        | some child =>
          match trie_insert child key value with
          | none => none
          | some (b, child1) =>
            some (b, .node root1.bitfield root1.value (root1.children.set index.toNat child1))

/-! ## Definitions of the specification -/

/-- A sequence of `trie_insert` calls on the same trie, in order (as the first
loop of `main`, lines 131-138): the returned `bool`s and the trie after the
last call. -/
def insert_seq : trie_t → List (List Int × Int) → Option (List Bool × trie_t)
  | root, [] => some ([], root)
  | root, (key, value) :: calls =>
    match trie_insert root key value with
    | none => none
    | some (b, root1) =>
      match insert_seq root1 calls with
      | none => none
      | some (bs, root2) => some (b :: bs, root2)

/-- The tries that can be reached from a new trie by `trie_insert` calls,
successful or not. -/
inductive Reachable : trie_t → Prop
  | new : Reachable trie_new
  | insert {t t1 : trie_t} {b : Bool} (k : List Int) (v : Int) :
      Reachable t → trie_insert t k v = some (b, t1) → Reachable t1

/-- The symbols of the alphabet: `A`-`Z`, underscore, period, hyphen, apostrophe
and space. -/
def in_alphabet (c : Int) : Prop :=
  (65 ≤ c ∧ c ≤ 90) ∨ c = 95 ∨ c = 46 ∨ c = 45 ∨ c = 39 ∨ c = 32

instance (c : Int) : Decidable (in_alphabet c) :=
  inferInstanceAs (Decidable ((65 ≤ c ∧ c ≤ 90) ∨ c = 95 ∨ c = 46 ∨ c = 45 ∨ c = 39 ∨ c = 32))

/-- A key made of symbols of the alphabet only. -/
def valid_key (k : List Int) : Prop := ∀ c ∈ k, in_alphabet c

instance (k : List Int) : Decidable (valid_key k) :=
  inferInstanceAs (Decidable (∀ c ∈ k, in_alphabet c))

/-- The finite map of the specification, read off a sequence of calls: the value
carried by the last call whose key equals `q` and whose key consists only of
alphabet symbols, if there is such a call. -/
def last_valid_call (calls : List (List Int × Int)) (q : List Int) : Option Int :=
  ((calls.filter (fun call => decide (call.1 = q ∧ valid_key call.1))).getLast?).map
    (fun call => call.2)

/-- The node reached from `root` along the child edges of `key`, if they all
exist (the walk of `trie_get` without the final test of the terminal flag). -/
def node_at : trie_t → List Int → Option trie_t
  | root, [] => some root
  | root, symbol :: key =>
    let pos := get_bit_pos symbol
    if pos = -1 then none
    else if EXIST_CHILD root pos ≠ 0 then
      match child_at root.children (GET_CHILD_INDEX root pos) with
      | none => none
      | some child => node_at child key
    else none

/-- Number of set bits of `bf` at the positions `p ≤ j < 32`. -/
def rank (bf p : Nat) : Nat :=
  ∑ j in Finset.Ico p 32, if bf.testBit j = true then 1 else 0

/-- The density invariant, at every node: the bitfield is a 32-bit word, the
children array has `NO_OF_CHILD` slots and every child is well formed. -/
inductive WF : trie_t → Prop
  | node (bf : Nat) (v : Int) (cs : List trie_t) :
      bf < 2 ^ 32 → (cs.length : Int) = NO_OF_CHILD (.node bf v cs) → (∀ c ∈ cs, WF c) →
      WF (.node bf v cs)

/-- The child of `root` for the bit position `pos`, read as `trie_get` and
`trie_insert` read it: the slot `GET_CHILD_INDEX` of the children array when
`EXIST_CHILD` holds. -/
def subtrie (root : trie_t) (pos : Nat) : Option trie_t :=
  if EXIST_CHILD root (pos : Int) ≠ 0 then
    child_at root.children (GET_CHILD_INDEX root (pos : Int))
  else none

/-- The nodes of a trie: the root and the nodes of its children. -/
inductive is_node_of : trie_t → trie_t → Prop
  | root (t : trie_t) : is_node_of t t
  | child {n c t : trie_t} : c ∈ t.children → is_node_of n c → is_node_of n t

/-- No node of the trie other than the root has a zero bitfield: every such
node is terminal or has a child. -/
def no_empty_nodes (t : trie_t) : Prop :=
  ∀ c ∈ t.children, ∀ n, is_node_of n c → n.bitfield ≠ 0

mutual
/-- The total number of nodes of a trie (the nodes that `trie_free`, lines
50-59, releases). -/
def node_count : trie_t → Nat
  | .node _ _ cs => 1 + node_count_list cs
/-- The total number of nodes of the tries of a children array. -/
def node_count_list : List trie_t → Nat
  | [] => 0
  | c :: cs => node_count c + node_count_list cs
end

mutual
/-- The structure of a trie without the stored values: every `value` is
replaced by 0, every bitfield and every children array is kept. -/
def erase_values : trie_t → trie_t
  | .node bf _ cs => .node bf 0 (erase_values_list cs)
/-- The structure of the tries of a children array without the stored values. -/
def erase_values_list : List trie_t → List trie_t
  | [] => []
  | c :: cs => erase_values c :: erase_values_list cs
end

/-- The characters of a string literal as C `char` values. -/
def cstr (s : String) : List Int := s.toList.map (fun c => (c.toNat : Int))


end Trie

/-!
# Last words and rhymes (`sonnets/source/sonnets.c`)

A line or a phoneme string (`char *`) is the list of the characters that
precede its terminating NUL; the character at the index of the length is the
NUL.  `lastwordtok` can read `line[-1]`, the byte that precedes the line in
memory: that byte is the parameter `before` of the model, and the results are
stated for every value of it.  A pointer into a string is its index.
-/

namespace Sonnets

/-- The function `isalpha` of `<ctype.h>`, in the "C" locale: the letters `A`-`Z`
and `a`-`z`. -/
def isalpha (c : Int) : Bool := decide ((65 ≤ c ∧ c ≤ 90) ∨ (97 ≤ c ∧ c ≤ 122))

/-- The read `line[i]`: the byte `before` at a negative index, the characters
of the string, and the terminating NUL from the index of the length on. -/
def char_at (before : Int) (line : List Int) (i : Int) : Int :=
  if i < 0 then before else line.getD i.toNat 0

/-- The loop of line 16 of `lastwordtok`, on the characters from index `i` to
the NUL: `pos` becomes the index of the last alphabetic character. -/
def last_alpha_loop : List Int → Int → Int → Int
  | [], _, pos => pos
  | c :: rest, i, pos => last_alpha_loop rest (i + 1) (if isalpha c = true then i else pos)

/-- The loop of line 19, `while (pos >= 0 && line[--pos] != ' ');`, entered with
`pos = n - 1`: the value of `pos` when the loop ends.  With `pos = 0` the loop
decrements `pos` to -1 and reads `line[-1]`; it then ends with `pos = -1`
whatever that byte is. -/
def back_to_space (before : Int) (line : List Int) : Nat → Int
  | 0 => -1
  | n + 1 =>
    if char_at before line ((n : Int) - 1) ≠ 32 then back_to_space before line n
    else (n : Int) - 1

/-- The loop of line 20, `while (!isalpha(line[++pos]));`, entered with `pos`:
the value of `pos` when the loop ends.  The first argument bounds the reads by
the index of the terminating NUL; the result is `none` if the loop would read
beyond it. -/
def skip_to_alpha (before : Int) (line : List Int) : Nat → Int → Option Int
  | 0, _ => none
  | fuel + 1, pos =>
    if isalpha (char_at before line (pos + 1)) = true then some (pos + 1)
    else skip_to_alpha before line fuel (pos + 1)

/-- The function `lastwordtok` (lines 13-22).  The result is the returned
pointer, `none` for `NULL` and `some pos` for `line + pos`, together with the
line after the call; it is `none` if the call would read beyond the
terminating NUL. -/
def lastwordtok (before : Int) (line : List Int) : Option (Option Nat × List Int) :=
  let pos := last_alpha_loop line 0 (-1)
  if pos = -1 then some (none, line)
  else
    let line1 := line.take (pos + 1).toNat
    let pos1 := back_to_space before line1 (pos + 1).toNat
    match skip_to_alpha before line1 ((line1.length : Int) - pos1).toNat pos1 with
    | none => none
    | some pos2 => some (some pos2.toNat, line1)

/-- The constant `NUM_OF_VOWELS` (line 32). -/
def NUM_OF_VOWELS : Nat := 5

/-- The array `vowels` of `is_phoneme_vowel` (line 35): `A`, `E`, `I`, `O`, `U`. -/
def vowels : List Int := [65, 69, 73, 79, 85]

/-- The loop of lines 36-38 of `is_phoneme_vowel` over the entries of `vowels`
that are left. -/
def vowel_loop (c : Int) : List Int → Bool
  | [] => false
  | v :: rest => if c = v then true else vowel_loop c rest

/-- The function `is_phoneme_vowel` (lines 33-41) on the pointer `str = s + i`. -/
def is_phoneme_vowel (before : Int) (s : List Int) (i : Nat) : Bool :=
  if char_at before s ((i : Int) - 1) = 32 then
    vowel_loop (char_at before s (i : Int)) (vowels.take NUM_OF_VOWELS)
  else false

/-- The loop of `strrhyme` (lines 45-48) with `curr = phonemes + i`: the index of
the returned pointer. -/
def strrhyme_loop (before : Int) (s : List Int) : Nat → Nat
  | 0 => 0
  | i + 1 => if is_phoneme_vowel before s (i + 1) = true then i + 1
    else strrhyme_loop before s i

/-- The function `strrhyme` (lines 43-49): the index of the returned pointer, so
that the returned string is `phonemes.drop (strrhyme before phonemes)`. -/
def strrhyme (before : Int) (phonemes : List Int) : Nat :=
  strrhyme_loop before phonemes phonemes.length

/-- An index `i ≥ 1` of `s` such that `s[i-1]` is a space and `s[i]` is one of
`A`, `E`, `I`, `O`, `U`. -/
def rhyme_start (s : List Int) (i : Nat) : Prop :=
  1 ≤ i ∧ s[i - 1]? = some 32 ∧
    (s[i]? = some 65 ∨ s[i]? = some 69 ∨ s[i]? = some 73 ∨ s[i]? = some 79 ∨ s[i]? = some 85)

/-- The characters of a string literal as C `char` values. -/
def cstr (s : String) : List Int := s.toList.map (fun c => (c.toNat : Int))

end Sonnets

namespace Trie

/-! ## Set bits and ranks -/

theorem count_set_bits_loop_eq (k : Nat) : ∀ (n : Nat) (s : Int),
    count_set_bits_loop k n s
      = s + ((∑ i in Finset.range k, if n.testBit i = true then 1 else 0 : Nat) : Int) := by
  induction k with
  | zero => intro n s; simp [count_set_bits_loop]
  | succ k ih =>
    intro n s
    rw [count_set_bits_loop, ih, Finset.sum_range_succ']
    have h0 : (n &&& 1 : Nat) = if n.testBit 0 = true then 1 else 0 := by
      rw [Nat.and_one_is_mod, Nat.testBit_zero]
      rcases Nat.mod_two_eq_zero_or_one n with h | h <;> simp [h]
    have h1 : ∀ i, (n >>> 1).testBit i = n.testBit (i + 1) := by
      intro i; rw [Nat.testBit_shiftRight, Nat.add_comm]
    simp only [h1, h0]
    push_cast
    ring

theorem testBit_eq_false_of_lt {bf : Nat} (hbf : bf < 2 ^ 32) {j : Nat} (hj : 32 ≤ j) :
    bf.testBit j = false :=
  Nat.testBit_lt_two_pow (lt_of_lt_of_le hbf (Nat.pow_le_pow_right (by decide) hj))

theorem sum_range_testBit {bf : Nat} (hbf : bf < 2 ^ 32) (p : Nat) :
    (∑ i in Finset.range 32, if (bf >>> p).testBit i = true then 1 else 0) = rank bf p := by
  unfold rank
  rw [Finset.sum_Ico_eq_sum_range]
  simp only [Nat.testBit_shiftRight]
  symm
  apply Finset.sum_subset
  · intro x hx
    simp only [Finset.mem_range] at hx ⊢
    omega
  · intro x _ hx
    simp only [Finset.mem_range] at hx
    rw [testBit_eq_false_of_lt hbf (by omega)]
    simp

theorem count_set_bits_shift {bf : Nat} (hbf : bf < 2 ^ 32) (p : Nat) :
    count_set_bits (bf >>> p) = (rank bf p : Int) := by
  rw [count_set_bits, WORD_SIZE, count_set_bits_loop_eq, zero_add, sum_range_testBit hbf]

theorem count_set_bits_eq {bf : Nat} (hbf : bf < 2 ^ 32) :
    count_set_bits bf = (rank bf 0 : Int) := by
  have := count_set_bits_shift hbf 0
  simpa using this

theorem rank_succ {bf p : Nat} (hp : p < 32) :
    rank bf p = (if bf.testBit p = true then 1 else 0) + rank bf (p + 1) := by
  unfold rank
  rw [Finset.sum_eq_sum_Ico_succ_bot hp]

theorem rank_anti {bf p q : Nat} (hpq : p ≤ q) : rank bf q ≤ rank bf p := by
  unfold rank
  apply Finset.sum_le_sum_of_subset
  intro x hx
  simp only [Finset.mem_Ico] at hx ⊢
  omega

theorem rank_lt {bf p q : Nat} (hpq : p < q) (hp : p < 32) (hset : bf.testBit p = true) :
    rank bf q < rank bf p := by
  have h1 := @rank_succ bf p hp
  have h2 : rank bf q ≤ rank bf (p + 1) := rank_anti hpq
  simp only [hset, if_true] at h1
  omega

theorem rank_pos {bf p : Nat} (hp : p < 32) (hset : bf.testBit p = true) : 0 < rank bf p := by
  have h1 := @rank_succ bf p hp
  simp only [hset, if_true] at h1
  omega

theorem rank_or_one (bf : Nat) {p : Nat} (hp : 1 ≤ p) : rank (bf ||| 1) p = rank bf p := by
  unfold rank
  apply Finset.sum_congr rfl
  intro j hj
  simp only [Finset.mem_Ico] at hj
  have : Nat.testBit 1 j = false := by
    have := Nat.testBit_two_pow_of_ne (n := 0) (m := j) (by omega)
    simpa using this
  rw [Nat.testBit_or, this, Bool.or_false]

theorem rank_or_bit {bf p : Nat} (hp : p < 32) (hclear : bf.testBit p = false) (q : Nat) :
    rank (bf ||| (1 <<< p)) q = rank bf q + (if q ≤ p then 1 else 0) := by
  unfold rank
  have hpt : ∀ j, (bf ||| (1 <<< p)).testBit j = (bf.testBit j || decide (p = j)) := by
    intro j
    rw [Nat.testBit_or, Nat.one_shiftLeft, Nat.testBit_two_pow]
  have hsplit : ∀ j, (if (bf ||| (1 <<< p)).testBit j = true then 1 else 0)
      = (if bf.testBit j = true then 1 else 0) + (if p = j then 1 else 0) := by
    intro j
    rw [hpt]
    by_cases hj : p = j
    · subst hj; simp [hclear]
    · simp [hj]
  simp only [hsplit]
  rw [Finset.sum_add_distrib, Finset.sum_ite_eq]
  simp only [Finset.mem_Ico]
  congr 1
  by_cases hq : q ≤ p <;> simp [hq, hp]

/-! ## The macros in terms of ranks -/

theorem and_one_eq (n : Nat) : n &&& 1 = if n.testBit 0 = true then 1 else 0 := by
  rw [Nat.and_one_is_mod, Nat.testBit_zero]
  rcases Nat.mod_two_eq_zero_or_one n with h | h <;> simp [h]

theorem exist_child_eq (bf : Nat) (v : Int) (cs : List trie_t) (p : Nat) :
    EXIST_CHILD (.node bf v cs) (p : Int) = if bf.testBit p = true then 1 else 0 := by
  simp only [EXIST_CHILD, trie_t.bitfield, Int.toNat_ofNat, and_one_eq, Nat.testBit_shiftRight,
    Nat.add_zero]

theorem get_child_index_eq {bf : Nat} (hbf : bf < 2 ^ 32) (v : Int) (cs : List trie_t) (p : Nat) :
    GET_CHILD_INDEX (.node bf v cs) (p : Int) = (rank bf p : Int) - 1 := by
  simp only [GET_CHILD_INDEX, trie_t.bitfield, Int.toNat_ofNat, count_set_bits_shift hbf]

theorem no_of_child_eq {bf : Nat} (hbf : bf < 2 ^ 32) (v : Int) (cs : List trie_t) :
    NO_OF_CHILD (.node bf v cs) = (rank bf 1 : Int) := by
  simp only [NO_OF_CHILD, trie_t.bitfield, count_set_bits_eq hbf, and_one_eq]
  rw [rank_succ (by decide : 0 < 32)]
  push_cast
  ring

theorem child_at_natCast (cs : List trie_t) (n : Nat) : child_at cs (n : Int) = cs[n]? := by
  simp [child_at]

theorem or_one_lt {bf : Nat} (hbf : bf < 2 ^ 32) : bf ||| 1 < 2 ^ 32 :=
  Nat.or_lt_two_pow hbf (by decide)

theorem or_bit_lt {bf p : Nat} (hbf : bf < 2 ^ 32) (hp : p < 32) : bf ||| (1 <<< p) < 2 ^ 32 := by
  apply Nat.or_lt_two_pow hbf
  rw [Nat.one_shiftLeft]
  exact Nat.pow_lt_pow_right (by decide) hp

theorem testBit_or_one (bf : Nat) {p : Nat} (hp : 1 ≤ p) : (bf ||| 1).testBit p = bf.testBit p := by
  have : Nat.testBit 1 p = false := by
    have := Nat.testBit_two_pow_of_ne (n := 0) (m := p) (by omega)
    simpa using this
  rw [Nat.testBit_or, this, Bool.or_false]

theorem testBit_or_bit (bf p j : Nat) :
    (bf ||| (1 <<< p)).testBit j = (bf.testBit j || decide (p = j)) := by
  rw [Nat.testBit_or, Nat.one_shiftLeft, Nat.testBit_two_pow]

/-! ## The alphabet -/

theorem get_bit_pos_eq_neg_one_iff (c : Int) : get_bit_pos c = -1 ↔ ¬ in_alphabet c := by
  unfold get_bit_pos in_alphabet
  split_ifs <;> omega

theorem get_bit_pos_bounds {c : Int} (h : in_alphabet c) :
    1 ≤ get_bit_pos c ∧ get_bit_pos c ≤ 31 := by
  unfold in_alphabet at h
  unfold get_bit_pos
  split_ifs <;> omega

theorem get_bit_pos_injective {c d : Int} (hd : in_alphabet d)
    (h : get_bit_pos c = get_bit_pos d) : c = d := by
  unfold in_alphabet at hd
  unfold get_bit_pos at h
  split_ifs at h <;> omega

theorem get_bit_pos_nat {c : Int} (h : in_alphabet c) :
    ∃ p : Nat, get_bit_pos c = (p : Int) ∧ 1 ≤ p ∧ p < 32 := by
  obtain ⟨h1, h2⟩ := get_bit_pos_bounds h
  refine ⟨(get_bit_pos c).toNat, ?_, ?_, ?_⟩ <;> omega

theorem valid_key_cons {d : Int} (hd : in_alphabet d) (q : List Int) :
    valid_key (d :: q) ↔ valid_key q := by
  simp [valid_key, hd]

theorem not_valid_key_iff (k : List Int) : ¬ valid_key k ↔ ∃ c ∈ k, ¬ in_alphabet c := by
  simp [valid_key]

/-! ## Well-formed tries -/

theorem WF.lt {bf : Nat} {v : Int} {cs : List trie_t} (h : WF (.node bf v cs)) : bf < 2 ^ 32 := by
  cases h; assumption

theorem WF.length {bf : Nat} {v : Int} {cs : List trie_t} (h : WF (.node bf v cs)) :
    cs.length = rank bf 1 := by
  cases h with
  | node _ _ _ hbf hlen _ =>
    rw [no_of_child_eq hbf] at hlen
    exact_mod_cast hlen

theorem WF.child {bf : Nat} {v : Int} {cs : List trie_t} (h : WF (.node bf v cs)) :
    ∀ c ∈ cs, WF c := by
  cases h; assumption

theorem WF.mk {bf : Nat} {v : Int} {cs : List trie_t} (hbf : bf < 2 ^ 32)
    (hlen : cs.length = rank bf 1) (hcs : ∀ c ∈ cs, WF c) : WF (.node bf v cs) := by
  refine WF.node bf v cs hbf ?_ hcs
  rw [no_of_child_eq hbf, hlen]

theorem rank_zero_eq (p : Nat) : rank 0 p = 0 := by
  unfold rank
  apply Finset.sum_eq_zero
  intro j _
  simp

theorem WF_trie_new : WF trie_new :=
  WF.mk (by decide) (by rw [rank_zero_eq]; rfl) (by intro c hc; cases hc)

/-- The slot of the child for the set bit `p` is inside the array. -/
theorem WF.index_lt {bf : Nat} {v : Int} {cs : List trie_t} (h : WF (.node bf v cs))
    {p : Nat} (hp1 : 1 ≤ p) (hp : p < 32) (hset : bf.testBit p = true) :
    rank bf p - 1 < cs.length := by
  have h1 := rank_pos hp hset
  have h2 : rank bf p ≤ rank bf 1 := rank_anti hp1
  rw [h.length]
  omega

/-! ## One step of `trie_get` and of `trie_insert` -/

theorem trie_get_nil (bf : Nat) (v : Int) (cs : List trie_t) (out : Int) :
    trie_get (.node bf v cs) [] out
      = if bf.testBit 0 = true then some (true, v) else some (false, out) := by
  simp only [trie_get, trie_t.bitfield, trie_t.value, and_one_eq]
  by_cases h : bf.testBit 0 = true <;> simp [h]

theorem trie_get_nil_eq (t : trie_t) (out : Int) :
    trie_get t [] out
      = if t.bitfield.testBit 0 = true then some (true, t.value) else some (false, out) := by
  cases t with
  | node bf v cs => exact trie_get_nil bf v cs out

theorem trie_get_cons_invalid (t : trie_t) {d : Int} (hd : ¬ in_alphabet d) (q : List Int)
    (out : Int) : trie_get t (d :: q) out = some (false, out) := by
  have h := (get_bit_pos_eq_neg_one_iff d).mpr hd
  simp only [trie_get, h, if_true]

theorem trie_get_cons {bf : Nat} (hbf : bf < 2 ^ 32) (v : Int) (cs : List trie_t) {d : Int}
    {p : Nat} (hd : get_bit_pos d = (p : Int)) (q : List Int) (out : Int) :
    trie_get (.node bf v cs) (d :: q) out
      = if bf.testBit p = true then
          (match cs[rank bf p - 1]? with
            | none => none
            | some child => trie_get child q out)
        else some (false, out) := by
  have hne : ¬ ((p : Int) = -1) := by omega
  simp only [trie_get, hd, hne, if_false, exist_child_eq, get_child_index_eq hbf, trie_t.children]
  by_cases h : bf.testBit p = true
  · have hp : p < 32 := by
      by_contra hp
      rw [testBit_eq_false_of_lt hbf (by omega)] at h
      cases h
    have hpos := rank_pos hp h
    have hidx : (rank bf p : Int) - 1 = ((rank bf p - 1 : Nat) : Int) := by omega
    simp only [h, if_true, hidx, child_at_natCast]
    simp
  · simp [h]

theorem trie_get_trie_new (q : List Int) (out : Int) :
    trie_get trie_new q out = some (false, out) := by
  cases q with
  | nil => rfl
  | cons d q =>
    by_cases hd : in_alphabet d
    · obtain ⟨p, hp, _, _⟩ := get_bit_pos_nat hd
      rw [trie_new, trie_get_cons (by decide) 0 [] hp]
      simp
    · exact trie_get_cons_invalid _ hd q out

theorem ensure_child_exists {bf : Nat} (hbf : bf < 2 ^ 32) (v : Int) (cs : List trie_t)
    {p : Nat} (hp : p < 32) (hset : bf.testBit p = true) :
    ensure_child (.node bf v cs) (p : Int)
      = some (.node bf v cs, ((rank bf p - 1 : Nat) : Int)) := by
  have hpos := rank_pos hp hset
  have hidx : (rank bf p : Int) - 1 = ((rank bf p - 1 : Nat) : Int) := by omega
  simp [ensure_child, exist_child_eq, hset, get_child_index_eq hbf, hidx]

theorem ensure_child_new {bf : Nat} {v : Int} {cs : List trie_t} (h : WF (.node bf v cs))
    {p : Nat} (hp1 : 1 ≤ p) (hp : p < 32) (hclear : bf.testBit p = false) :
    ensure_child (.node bf v cs) (p : Int)
      = some (.node (bf ||| (1 <<< p)) v
                (cs.take (rank bf p) ++ trie_new :: cs.drop (rank bf p)),
              (rank bf p : Int)) := by
  have hbf := h.lt
  have hbf2 := or_bit_lt hbf hp
  have hlen := h.length
  have hr1 : rank (bf ||| (1 <<< p)) 1 = rank bf 1 + 1 := by
    rw [rank_or_bit hp hclear]; simp [hp1]
  have hrp : rank (bf ||| (1 <<< p)) p = rank bf p + 1 := by
    rw [rank_or_bit hp hclear]; simp
  have hle : rank bf p ≤ rank bf 1 := rank_anti hp1
  simp only [ensure_child, exist_child_eq, hclear, trie_t.bitfield, trie_t.value,
    trie_t.children, Int.toNat_ofNat, get_child_index_eq hbf2, no_of_child_eq hbf2, hr1, hrp]
  have hidx : ((rank bf p + 1 : Nat) : Int) - 1 = (rank bf p : Int) := by omega
  have hcnt : ((rank bf 1 + 1 : Nat) : Int) - (rank bf p : Int) - 1
      = ((rank bf 1 - rank bf p : Nat) : Int) := by omega
  have hcond : (0 : Int) ≤ (rank bf p : Int) ∧ (rank bf p : Int) < ((rank bf 1 + 1 : Nat) : Int)
      ∧ ((rank bf 1 + 1 : Nat) : Int) - 1 ≤ (cs.length : Int) := by
    refine ⟨by omega, by omega, by omega⟩
  simp only [hidx, hcnt, Int.toNat_ofNat]
  rw [if_pos (by simp)]
  rw [if_pos hcond]
  rw [List.take_of_length_le (l := cs.drop (rank bf p)) (by rw [List.length_drop]; omega)]

theorem trie_insert_cons_invalid (t : trie_t) {c : Int} (hc : ¬ in_alphabet c) (k : List Int)
    (v : Int) : trie_insert t (c :: k) v = some (false, t) := by
  have h := (get_bit_pos_eq_neg_one_iff c).mpr hc
  simp only [trie_insert, h, if_true]

theorem trie_insert_cons {t t1 child : trie_t} {c : Int} {p idx : Nat}
    (hc : get_bit_pos c = (p : Int)) (he : ensure_child t (p : Int) = some (t1, (idx : Int)))
    (hchild : t1.children[idx]? = some child) (k : List Int) (v : Int) :
    trie_insert t (c :: k) v
      = match trie_insert child k v with
        | none => none
        | some (b, child1) =>
          some (b, .node t1.bitfield t1.value (t1.children.set idx child1)) := by
  have hne : ¬ ((p : Int) = -1) := by omega
  simp only [trie_insert, hc, hne, if_false, he, child_at_natCast, hchild, Int.toNat_ofNat]

/-! ## Inserting one slot into the packed array -/

theorem getElem?_slot_lt (cs : List trie_t) (x : trie_t) {i j : Nat} (hj : j < i)
    (hi : i ≤ cs.length) : (cs.take i ++ x :: cs.drop i)[j]? = cs[j]? := by
  rw [List.getElem?_append_left (by rw [List.length_take]; omega), List.getElem?_take_of_lt hj]

theorem getElem?_slot_eq (cs : List trie_t) (x : trie_t) {i : Nat} (hi : i ≤ cs.length) :
    (cs.take i ++ x :: cs.drop i)[i]? = some x := by
  have hlen : (cs.take i).length = i := by rw [List.length_take]; omega
  rw [List.getElem?_append_right (by omega), hlen]
  simp

theorem getElem?_slot_gt (cs : List trie_t) (x : trie_t) {i j : Nat} (hj : i ≤ j)
    (hi : i ≤ cs.length) : (cs.take i ++ x :: cs.drop i)[j + 1]? = cs[j]? := by
  have hlen : (cs.take i).length = i := by rw [List.length_take]; omega
  rw [List.getElem?_append_right (by omega), hlen]
  have h1 : j + 1 - i = (j - i) + 1 := by omega
  rw [h1, List.getElem?_cons_succ, List.getElem?_drop]
  congr 1
  omega

theorem length_slot (cs : List trie_t) (x : trie_t) {i : Nat} (hi : i ≤ cs.length) :
    (cs.take i ++ x :: cs.drop i).length = cs.length + 1 := by
  simp only [List.length_append, List.length_take, List.length_cons, List.length_drop]
  omega

theorem mem_slot {cs : List trie_t} {x c : trie_t} {i : Nat}
    (h : c ∈ cs.take i ++ x :: cs.drop i) : c = x ∨ c ∈ cs := by
  rcases List.mem_append.mp h with h | h
  · exact Or.inr (List.mem_of_mem_take h)
  · rcases List.mem_cons.mp h with h | h
    · exact Or.inl h
    · exact Or.inr (List.mem_of_mem_drop h)

/-! ## The child of a node for a bit position -/

theorem rank_pred_ne {bf p q : Nat} (hp : p < 32) (hq : q < 32) (hsp : bf.testBit p = true)
    (hsq : bf.testBit q = true) (hne : p ≠ q) : rank bf p - 1 ≠ rank bf q - 1 := by
  have h1 := rank_pos hp hsp
  have h2 := rank_pos hq hsq
  rcases Nat.lt_or_gt_of_ne hne with h | h
  · have := rank_lt h hp hsp
    omega
  · have := rank_lt h hq hsq
    omega

theorem subtrie_eq {bf : Nat} (hbf : bf < 2 ^ 32) (v : Int) (cs : List trie_t) {p : Nat}
    (hp : p < 32) :
    subtrie (.node bf v cs) p = if bf.testBit p = true then cs[rank bf p - 1]? else none := by
  simp only [subtrie, exist_child_eq, get_child_index_eq hbf, trie_t.children]
  by_cases h : bf.testBit p = true
  · have hpos := rank_pos hp h
    have hidx : (rank bf p : Int) - 1 = ((rank bf p - 1 : Nat) : Int) := by omega
    simp [h, hidx, child_at_natCast]
  · simp [h]

theorem WF.subtrie_wf {t c : trie_t} (ht : WF t) {p : Nat} (hp : p < 32)
    (h : subtrie t p = some c) : WF c := by
  cases t with
  | node bf v cs =>
  rw [subtrie_eq ht.lt v cs hp] at h
  by_cases hset : bf.testBit p = true
  · rw [if_pos hset] at h
    exact ht.child c (List.getElem?_mem h)
  · rw [if_neg hset] at h
    cases h

theorem WF.subtrie_getD_wf {t : trie_t} (ht : WF t) {p : Nat} (hp : p < 32) :
    WF ((subtrie t p).getD trie_new) := by
  cases h : subtrie t p with
  | none => exact WF_trie_new
  | some c => exact ht.subtrie_wf hp h

theorem trie_get_cons_wf {t : trie_t} (ht : WF t) {d : Int} {p : Nat}
    (hd : get_bit_pos d = (p : Int)) (hp1 : 1 ≤ p) (hp : p < 32) (q : List Int) (out : Int) :
    trie_get t (d :: q) out
      = match subtrie t p with
        | some c => trie_get c q out
        | none => some (false, out) := by
  cases t with
  | node bf v cs =>
  rw [trie_get_cons ht.lt v cs hd, subtrie_eq ht.lt v cs hp]
  by_cases hset : bf.testBit p = true
  · have hidx := ht.index_lt hp1 hp hset
    have hsome : cs[rank bf p - 1]? = some cs[rank bf p - 1] := by simp [hidx]
    rw [if_pos hset, if_pos hset, hsome]
  · rw [if_neg hset, if_neg hset]

theorem trie_get_cons_getD {t : trie_t} (ht : WF t) {d : Int} {p : Nat}
    (hd : get_bit_pos d = (p : Int)) (hp1 : 1 ≤ p) (hp : p < 32) (q : List Int) (out : Int) :
    trie_get t (d :: q) out = trie_get ((subtrie t p).getD trie_new) q out := by
  rw [trie_get_cons_wf ht hd hp1 hp]
  cases subtrie t p with
  | none => exact (trie_get_trie_new q out).symm
  | some c => rfl

theorem node_at_cons_invalid (t : trie_t) {d : Int} (hd : ¬ in_alphabet d) (q : List Int) :
    node_at t (d :: q) = none := by
  have h := (get_bit_pos_eq_neg_one_iff d).mpr hd
  simp only [node_at, h, if_true]

theorem node_at_cons (t : trie_t) {d : Int} {p : Nat} (hd : get_bit_pos d = (p : Int))
    (q : List Int) :
    node_at t (d :: q)
      = match subtrie t p with
        | some c => node_at c q
        | none => none := by
  have hne : ¬ ((p : Int) = -1) := by omega
  simp only [node_at, hd, hne, if_false, subtrie]
  by_cases h : EXIST_CHILD t (p : Int) = 0
  · simp [h]
  · simp only [h, ne_eq, not_false_eq_true, if_true]
    cases child_at t.children (GET_CHILD_INDEX t (p : Int)) <;> rfl

/-! ## One level of `trie_insert` -/

/-- One level of `trie_insert` on a well-formed node, for a symbol of the
alphabet: the call descends into the child for the symbol (a new node when
there was none) and, when the recursive call returns, the node has the new
child at the position of the symbol and every other child where it was. -/
theorem trie_insert_step {t : trie_t} (ht : WF t) {c : Int} {p : Nat}
    (hc : get_bit_pos c = (p : Int)) (hp1 : 1 ≤ p) (hp32 : p < 32) (k : List Int) (v : Int)
    {b : Bool} {child1 : trie_t}
    (hins : trie_insert ((subtrie t p).getD trie_new) k v = some (b, child1))
    (hwf1 : WF child1) :
    ∃ t1, trie_insert t (c :: k) v = some (b, t1) ∧ WF t1 ∧ t1.value = t.value ∧
      t1.bitfield.testBit 0 = t.bitfield.testBit 0 ∧ subtrie t1 p = some child1 ∧
      ∀ j, 1 ≤ j → j < 32 → j ≠ p → subtrie t1 j = subtrie t j := by
  cases t with
  | node bf v0 cs =>
  rw [subtrie_eq ht.lt v0 cs hp32] at hins
  by_cases hset : bf.testBit p = true
  · have hidx := ht.index_lt hp1 hp32 hset
    have hchild : cs[rank bf p - 1]? = some cs[rank bf p - 1] := by simp [hidx]
    rw [if_pos hset, hchild, Option.getD_some] at hins
    have hwf : WF (.node bf v0 (cs.set (rank bf p - 1) child1)) := by
      refine WF.mk ht.lt (by rw [List.length_set]; exact ht.length) ?_
      intro x hx
      rcases List.mem_or_eq_of_mem_set hx with hx | hx
      · exact ht.child x hx
      · rw [hx]; exact hwf1
    refine ⟨.node bf v0 (cs.set (rank bf p - 1) child1), ?_, hwf, rfl, rfl, ?_, ?_⟩
    · rw [trie_insert_cons hc (ensure_child_exists ht.lt v0 cs hp32 hset) hchild, hins]
      rfl
    · rw [subtrie_eq ht.lt v0 _ hp32, if_pos hset, List.getElem?_set_self hidx]
    · intro j _ hj32 hjp
      rw [subtrie_eq ht.lt v0 _ hj32, subtrie_eq ht.lt v0 cs hj32]
      by_cases hsj : bf.testBit j = true
      · rw [if_pos hsj, if_pos hsj,
          List.getElem?_set_ne (rank_pred_ne hp32 hj32 hset hsj (Ne.symm hjp))]
      · rw [if_neg hsj, if_neg hsj]
  · have hclear : bf.testBit p = false := by simpa using hset
    have hle : rank bf p ≤ cs.length := by rw [ht.length]; exact rank_anti hp1
    have hbf2 := or_bit_lt ht.lt hp32
    rw [if_neg hset, Option.getD_none] at hins
    have hs2 : (bf ||| (1 <<< p)).testBit p = true := by
      rw [testBit_or_bit]; simp
    have hr : rank (bf ||| (1 <<< p)) p - 1 = rank bf p := by
      rw [rank_or_bit hp32 hclear]; simp
    have hlen2 : rank bf p
        < (cs.take (rank bf p) ++ trie_new :: cs.drop (rank bf p)).length := by
      rw [length_slot cs trie_new hle]; omega
    have hwf : WF (.node (bf ||| (1 <<< p)) v0
        ((cs.take (rank bf p) ++ trie_new :: cs.drop (rank bf p)).set (rank bf p) child1)) := by
      refine WF.mk hbf2 ?_ ?_
      · rw [List.length_set, length_slot cs trie_new hle, rank_or_bit hp32 hclear, ht.length]
        simp [hp1]
      · intro x hx
        rcases List.mem_or_eq_of_mem_set hx with hx | hx
        · rcases mem_slot hx with hx | hx
          · rw [hx]; exact WF_trie_new
          · exact ht.child x hx
        · rw [hx]; exact hwf1
    refine ⟨_, ?_, hwf, rfl, ?_, ?_, ?_⟩
    · rw [trie_insert_cons hc (ensure_child_new ht hp1 hp32 hclear)
        (getElem?_slot_eq cs trie_new hle), hins]
      rfl
    · show (bf ||| (1 <<< p)).testBit 0 = bf.testBit 0
      rw [testBit_or_bit]
      have : decide (p = 0) = false := by simp; omega
      rw [this, Bool.or_false]
    · rw [subtrie_eq hbf2 v0 _ hp32, if_pos hs2, hr, List.getElem?_set_self hlen2]
    · intro j _ hj32 hjp
      rw [subtrie_eq hbf2 v0 _ hj32, subtrie_eq ht.lt v0 cs hj32]
      have hsame : (bf ||| (1 <<< p)).testBit j = bf.testBit j := by
        rw [testBit_or_bit]; simp [Ne.symm hjp]
      rw [hsame]
      by_cases hsj : bf.testBit j = true
      · rw [if_pos hsj, if_pos hsj]
        have hposj := rank_pos hj32 hsj
        rcases Nat.lt_or_gt_of_ne hjp with h | h
        · have hrj : rank (bf ||| (1 <<< p)) j = rank bf j + 1 := by
            rw [rank_or_bit hp32 hclear, if_pos (by omega)]
          have hlt : rank bf p < rank bf j := rank_lt h hj32 hsj
          have e : rank bf j + 1 - 1 = (rank bf j - 1) + 1 := by omega
          rw [hrj, e, List.getElem?_set_ne (by omega),
            getElem?_slot_gt cs trie_new (by omega) hle]
        · have hrj : rank (bf ||| (1 <<< p)) j = rank bf j := by
            rw [rank_or_bit hp32 hclear, if_neg (by omega)]; rfl
          have hlt : rank bf j ≤ rank bf p := rank_anti (le_of_lt h)
          rw [hrj, List.getElem?_set_ne (by omega),
            getElem?_slot_lt cs trie_new (by omega) hle]
      · rw [if_neg hsj, if_neg hsj]

/-! ## The effect of one `trie_insert` on every lookup -/

theorem trie_insert_spec (k : List Int) : ∀ (t : trie_t) (v : Int), WF t →
    ∃ b t1, trie_insert t k v = some (b, t1) ∧ (b = true ↔ valid_key k) ∧ WF t1 ∧
      ∀ (q : List Int) (out : Int), trie_get t1 q out
        = if valid_key k ∧ q = k then some (true, v) else trie_get t q out := by
  induction k with
  | nil =>
    intro t v ht
    cases t with
    | node bf v0 cs =>
    refine ⟨true, .node (bf ||| 1) v cs, rfl, by simp [valid_key], ?_, ?_⟩
    · exact WF.mk (or_one_lt ht.lt) (by rw [rank_or_one bf (le_refl 1)]; exact ht.length)
        ht.child
    · intro q out
      cases q with
      | nil =>
        rw [trie_get_nil]
        simp [valid_key]
      | cons d q =>
        rw [if_neg (by simp)]
        by_cases hd : in_alphabet d
        · obtain ⟨p, hp, hp1, _⟩ := get_bit_pos_nat hd
          rw [trie_get_cons (or_one_lt ht.lt) v cs hp, trie_get_cons ht.lt v0 cs hp,
            testBit_or_one bf hp1, rank_or_one bf hp1]
        · rw [trie_get_cons_invalid _ hd, trie_get_cons_invalid _ hd]
  | cons c k ih =>
    intro t v ht
    by_cases hc : in_alphabet c
    · obtain ⟨p, hp, hp1, hp32⟩ := get_bit_pos_nat hc
      have hvalid : valid_key (c :: k) ↔ valid_key k := by simp [valid_key, hc]
      obtain ⟨b, child1, hins, hb, hwf1, hget1⟩ :=
        ih ((subtrie t p).getD trie_new) v (ht.subtrie_getD_wf hp32)
      obtain ⟨t1, hstep, hwft1, hval, hbit, hsub, hother⟩ :=
        trie_insert_step ht hp hp1 hp32 k v hins hwf1
      refine ⟨b, t1, hstep, by rw [hvalid]; exact hb, hwft1, ?_⟩
      intro q out
      cases q with
      | nil =>
        rw [if_neg (by simp), trie_get_nil_eq, trie_get_nil_eq, hval, hbit]
      | cons d q =>
        by_cases hd : in_alphabet d
        · obtain ⟨pd, hpd, hpd1, hpd32⟩ := get_bit_pos_nat hd
          by_cases hdc : d = c
          · subst hdc
            have hpp : pd = p := by omega
            subst hpp
            rw [trie_get_cons_wf hwft1 hpd hpd1 hpd32, hsub, trie_get_cons_getD ht hpd hpd1 hpd32]
            simp only []
            rw [hget1]
            simp [hvalid]
          · have hpne : pd ≠ p := fun h => hdc (get_bit_pos_injective hc (by rw [hpd, hp, h]))
            have hcond : ¬ (valid_key (c :: k) ∧ d :: q = c :: k) := by
              rintro ⟨_, h⟩
              exact hdc (List.cons.inj h).1
            rw [if_neg hcond, trie_get_cons_wf hwft1 hpd hpd1 hpd32,
              trie_get_cons_wf ht hpd hpd1 hpd32, hother pd hpd1 hpd32 hpne]
        · rw [trie_get_cons_invalid _ hd, trie_get_cons_invalid _ hd, if_neg]
          rintro ⟨_, h⟩
          exact hd (by rw [(List.cons.inj h).1]; exact hc)
    · refine ⟨false, t, trie_insert_cons_invalid t hc k v, by simp [valid_key, hc], ht, ?_⟩
      intro q out
      rw [if_neg]
      simp [valid_key, hc]

/-! ## The nodes of the trie after a failed `trie_insert` -/

theorem node_at_trie_new {p : List Int} {n : trie_t} (h : node_at trie_new p = some n) :
    p = [] ∧ n = trie_new := by
  cases p with
  | nil =>
    simp only [node_at, Option.some.injEq] at h
    exact ⟨rfl, h.symm⟩
  | cons d q =>
    by_cases hd : in_alphabet d
    · obtain ⟨pd, hpd, _, hpd32⟩ := get_bit_pos_nat hd
      rw [node_at_cons _ hpd, trie_new, subtrie_eq (by decide) 0 [] hpd32] at h
      simp at h
    · rw [node_at_cons_invalid _ hd] at h
      cases h

theorem failed_insert_nodes (k : List Int) : ∀ (t : trie_t) (v : Int) (t1 : trie_t), WF t →
    trie_insert t k v = some (false, t1) → ∀ p : List Int,
    (∀ n, node_at t p = some n → ∃ n1, node_at t1 p = some n1 ∧
        n1.bitfield.testBit 0 = n.bitfield.testBit 0 ∧ n1.value = n.value) ∧
    (∀ n1, node_at t1 p = some n1 → node_at t p = none →
        n1.bitfield.testBit 0 = false ∧ p <+: k ∧ valid_key p) := by
  induction k with
  | nil =>
    intro t v t1 _ h
    simp [trie_insert] at h
  | cons c k ih =>
    intro t v t1 ht h p
    have hsame : ∀ (a : trie_t) (q : List Int),
        (∀ n, node_at a q = some n → ∃ n1, node_at a q = some n1 ∧
          n1.bitfield.testBit 0 = n.bitfield.testBit 0 ∧ n1.value = n.value) ∧
        (∀ n1, node_at a q = some n1 → node_at a q = none →
          n1.bitfield.testBit 0 = false ∧ q <+: c :: k ∧ valid_key q) := by
      intro a q
      refine ⟨fun n hn => ⟨n, hn, rfl, rfl⟩, fun n1 h1 h2 => ?_⟩
      rw [h1] at h2
      cases h2
    by_cases hc : in_alphabet c
    · obtain ⟨pc, hpc, hpc1, hpc32⟩ := get_bit_pos_nat hc
      obtain ⟨b, child1, hins, _, hwf1, _⟩ :=
        trie_insert_spec k ((subtrie t pc).getD trie_new) v (ht.subtrie_getD_wf hpc32)
      obtain ⟨t2, hstep, _, hval, hbit, hsub, hother⟩ :=
        trie_insert_step ht hpc hpc1 hpc32 k v hins hwf1
      rw [hstep] at h
      injection h with h
      injection h with hb ht2
      subst hb ht2
      have ihc := ih _ v child1 (ht.subtrie_getD_wf hpc32) hins
      cases p with
      | nil =>
        refine ⟨?_, ?_⟩
        · intro n hn
          simp only [node_at, Option.some.injEq] at hn
          subst hn
          exact ⟨t2, rfl, hbit, hval⟩
        · intro n1 _ hnone
          simp [node_at] at hnone
      | cons d p =>
        by_cases hd : in_alphabet d
        · obtain ⟨pd, hpd, hpd1, hpd32⟩ := get_bit_pos_nat hd
          by_cases hdc : d = c
          · subst hdc
            have hpp : pd = pc := by omega
            subst hpp
            rw [node_at_cons t2 hpd, node_at_cons t hpd, hsub]
            obtain ⟨iha, ihb⟩ := ihc p
            cases hsome : subtrie t pd with
            | some ch =>
              rw [hsome, Option.getD_some] at iha ihb
              refine ⟨iha, ?_⟩
              intro n1 h1 h2
              obtain ⟨x, y, z⟩ := ihb n1 h1 h2
              exact ⟨x, (List.cons_prefix_cons).mpr ⟨rfl, y⟩, (valid_key_cons hd p).mpr z⟩
            | none =>
              rw [hsome, Option.getD_none] at iha ihb
              refine ⟨fun n hn => (by cases hn), ?_⟩
              intro n1 h1 _
              cases hnp : node_at trie_new p with
              | none =>
                obtain ⟨x, y, z⟩ := ihb n1 h1 hnp
                exact ⟨x, (List.cons_prefix_cons).mpr ⟨rfl, y⟩, (valid_key_cons hd p).mpr z⟩
              | some n =>
                obtain ⟨hp0, hn0⟩ := node_at_trie_new hnp
                obtain ⟨n2, hn2, hb0, _⟩ := iha n hnp
                simp only [] at h1
                rw [h1] at hn2
                injection hn2 with hn2
                subst hn2 hp0 hn0
                refine ⟨by rw [hb0]; rfl, (List.cons_prefix_cons).mpr ⟨rfl, List.nil_prefix⟩, ?_⟩
                exact (valid_key_cons hd []).mpr (by simp [valid_key])
          · have hpne : pd ≠ pc := fun h => hdc (get_bit_pos_injective hc (by rw [hpd, hpc, h]))
            have e : node_at t2 (d :: p) = node_at t (d :: p) := by
              rw [node_at_cons t2 hpd, node_at_cons t hpd, hother pd hpd1 hpd32 hpne]
            rw [e]
            exact hsame t (d :: p)
        · rw [node_at_cons_invalid t2 hd, node_at_cons_invalid t hd]
          exact ⟨fun n hn => (by cases hn), fun n1 hn1 _ => (by cases hn1)⟩
    · rw [trie_insert_cons_invalid t hc] at h
      injection h with h
      injection h with _ ht1
      subst ht1
      exact hsame t p

/-! ## Reachable tries, lookups of malformed keys, sequences of calls -/

theorem Reachable.wf {t : trie_t} (h : Reachable t) : WF t := by
  induction h with
  | new => exact WF_trie_new
  | insert k v _ hins ih =>
    obtain ⟨b, t1, h1, _, hwf, _⟩ := trie_insert_spec k _ v ih
    rw [h1] at hins
    cases hins
    exact hwf

theorem trie_get_not_valid (q : List Int) : ∀ (t : trie_t) (out : Int), WF t → ¬ valid_key q →
    trie_get t q out = some (false, out) := by
  induction q with
  | nil => intro t out _ hq; exact absurd (by simp [valid_key]) hq
  | cons d q ih =>
    intro t out ht hq
    by_cases hd : in_alphabet d
    · rw [valid_key_cons hd] at hq
      obtain ⟨p, hp, hp1, hp32⟩ := get_bit_pos_nat hd
      cases t with
      | node bf v0 cs =>
      rw [trie_get_cons ht.lt v0 cs hp]
      by_cases hset : bf.testBit p = true
      · have hidx := ht.index_lt hp1 hp32 hset
        obtain ⟨child, hchild⟩ : ∃ child, cs[rank bf p - 1]? = some child :=
          ⟨cs[rank bf p - 1], by simp [hidx]⟩
        rw [if_pos hset, hchild]
        exact ih child out (ht.child child (List.getElem?_mem hchild)) hq
      · rw [if_neg hset]
    · exact trie_get_cons_invalid t hd q out

theorem last_valid_call_cons (call : List Int × Int) (calls : List (List Int × Int))
    (q : List Int) :
    last_valid_call (call :: calls) q
      = match last_valid_call calls q with
        | some v => some v
        | none => if call.1 = q ∧ valid_key call.1 then some call.2 else none := by
  unfold last_valid_call
  rw [List.filter_cons]
  by_cases h : call.1 = q ∧ valid_key call.1
  · rw [if_pos (by simpa using h), List.getLast?_cons, if_pos h]
    cases (List.filter (fun call => decide (call.1 = q ∧ valid_key call.1)) calls).getLast? <;> rfl
  · rw [if_neg (by simpa using h), if_neg h]
    cases (List.filter (fun call => decide (call.1 = q ∧ valid_key call.1)) calls).getLast? <;> rfl

theorem insert_seq_spec (calls : List (List Int × Int)) : ∀ (t0 : trie_t), WF t0 →
    ∃ t, insert_seq t0 calls = some (calls.map (fun call => decide (valid_key call.1)), t) ∧
      WF t ∧
      ∀ (q : List Int) (out : Int), trie_get t q out
        = match last_valid_call calls q with
          | some v => some (true, v)
          | none => trie_get t0 q out := by
  induction calls with
  | nil =>
    intro t0 h0
    exact ⟨t0, rfl, h0, fun q out => rfl⟩
  | cons call calls ih =>
    intro t0 h0
    obtain ⟨k, v⟩ := call
    obtain ⟨b, t1, h1, hb, hwf1, hget1⟩ := trie_insert_spec k t0 v h0
    obtain ⟨t, h2, hwf2, hget2⟩ := ih t1 hwf1
    have hb2 : b = decide (valid_key k) := by
      by_cases hk : valid_key k
      · rw [hb.mpr hk]; simp [hk]
      · cases b
        · simp [hk]
        · exact absurd (hb.mp rfl) hk
    refine ⟨t, ?_, hwf2, ?_⟩
    · simp only [insert_seq, h1, h2, List.map_cons, hb2]
    · intro q out
      rw [hget2, last_valid_call_cons]
      cases last_valid_call calls q with
      | some w => rfl
      | none =>
        simp only []
        rw [hget1]
        by_cases h : valid_key k ∧ q = k
        · rw [if_pos h, if_pos ⟨h.2.symm, h.1⟩]
        · rw [if_neg h, if_neg (fun h2 => h ⟨h2.2, h2.1.symm⟩)]

theorem last_valid_call_of_mem {calls : List (List Int × Int)}
    (hnodup : (calls.map (fun call => call.1)).Nodup) (hvalid : ∀ call ∈ calls, valid_key call.1)
    {call : List Int × Int} (hmem : call ∈ calls) :
    last_valid_call calls call.1 = some call.2 := by
  induction calls with
  | nil => cases hmem
  | cons c0 calls ih =>
    rw [List.map_cons, List.nodup_cons] at hnodup
    rw [last_valid_call_cons]
    rcases List.mem_cons.mp hmem with h | h
    · subst h
      have hnone : last_valid_call calls call.1 = none := by
        unfold last_valid_call
        rw [Option.map_eq_none', List.getLast?_eq_none_iff, List.filter_eq_nil_iff]
        intro x hx hcond
        have hx1 : x.1 = call.1 := by simpa using (of_decide_eq_true hcond).1
        exact hnodup.1 (by rw [← hx1]; exact List.mem_map_of_mem _ hx)
      rw [hnone]
      simp only []
      rw [if_pos ⟨trivial, hvalid call (List.mem_cons_self _ _)⟩]
    · rw [ih hnodup.2 (fun c hc => hvalid c (List.mem_cons_of_mem _ hc)) h]

/-! ## The contract of the trie -/

/-- C1 (round trip).  For every finite sequence of (key, value) pairs whose keys
are pairwise distinct and made of alphabet symbols only, the calls of
`trie_insert` in order on a new trie all return `true`, and afterwards
`trie_get` of each key returns `true` and writes the value inserted with it. -/
theorem roundtrip_distinct_keys (calls : List (List Int × Int))
    (hnodup : (calls.map (fun call => call.1)).Nodup)
    (hvalid : ∀ call ∈ calls, valid_key call.1) :
    ∃ t, insert_seq trie_new calls = some (calls.map (fun _ => true), t) ∧
      ∀ call ∈ calls, ∀ out : Int, trie_get t call.1 out = some (true, call.2) := by
  obtain ⟨t, hseq, _, hget⟩ := insert_seq_spec calls trie_new WF_trie_new
  refine ⟨t, ?_, ?_⟩
  · rw [hseq]
    congr 2
    apply List.map_congr_left
    intro call hcall
    simp [hvalid call hcall]
  · intro call hcall out
    rw [hget, last_valid_call_of_mem hnodup hvalid hcall]

/-- Instance of C1 on the keys `"CAT"`, `"CATS"`, the empty key and `"A-B C"`. -/
theorem roundtrip_distinct_keys_witness :
    ((([(cstr "CAT", 1), (cstr "CATS", 2), ([], -7), (cstr "A-B C", 0)] :
        List (List Int × Int)).map (fun call => call.1)).Nodup) ∧
    (∀ call ∈ ([(cstr "CAT", 1), (cstr "CATS", 2), ([], -7), (cstr "A-B C", 0)] :
        List (List Int × Int)), valid_key call.1) ∧
    ∃ t, insert_seq trie_new [(cstr "CAT", 1), (cstr "CATS", 2), ([], -7), (cstr "A-B C", 0)]
        = some (([(cstr "CAT", 1), (cstr "CATS", 2), ([], -7), (cstr "A-B C", 0)] :
            List (List Int × Int)).map (fun _ => true), t) ∧
      ∀ call ∈ ([(cstr "CAT", 1), (cstr "CATS", 2), ([], -7), (cstr "A-B C", 0)] :
        List (List Int × Int)), ∀ out : Int, trie_get t call.1 out = some (true, call.2) :=
  ⟨by decide, by decide, roundtrip_distinct_keys _ (by decide) (by decide)⟩

/-- C2 (overwrite is last-write-wins).  On every reachable trie, for every key
made of alphabet symbols and all values `v1`, `v2`, the two calls
`trie_insert(t, k, v1)` and `trie_insert(t, k, v2)` both return `true` and
afterwards `trie_get(t, k)` returns `true` with the value `v2`, hence not with
`v1` when `v1 ≠ v2`. -/
theorem overwrite_last_write_wins (t : trie_t) (ht : Reachable t) (k : List Int)
    (hk : valid_key k) (v1 v2 : Int) :
    ∃ t1 t2, trie_insert t k v1 = some (true, t1) ∧ trie_insert t1 k v2 = some (true, t2) ∧
      ∀ out : Int, trie_get t2 k out = some (true, v2) ∧
        (v1 ≠ v2 → trie_get t2 k out ≠ some (true, v1)) := by
  obtain ⟨b1, t1, h1, hb1, hwf1, _⟩ := trie_insert_spec k t v1 ht.wf
  obtain ⟨b2, t2, h2, hb2, _, hget2⟩ := trie_insert_spec k t1 v2 hwf1
  rw [hb1.mpr hk] at h1
  rw [hb2.mpr hk] at h2
  refine ⟨t1, t2, h1, h2, ?_⟩
  intro out
  have hg : trie_get t2 k out = some (true, v2) := by
    rw [hget2, if_pos ⟨hk, rfl⟩]
  refine ⟨hg, ?_⟩
  intro hne h
  rw [hg] at h
  injection h with h
  injection h with _ h
  exact hne h.symm

/-- Instance of C2: the key `"CAT"` written twice into a new trie. -/
theorem overwrite_last_write_wins_witness :
    Reachable trie_new ∧ valid_key (cstr "CAT") ∧
    ∃ t1 t2, trie_insert trie_new (cstr "CAT") 1 = some (true, t1) ∧
      trie_insert t1 (cstr "CAT") 2 = some (true, t2) ∧
      ∀ out : Int, trie_get t2 (cstr "CAT") out = some (true, 2) ∧
        ((1 : Int) ≠ 2 → trie_get t2 (cstr "CAT") out ≠ some (true, 1)) :=
  ⟨Reachable.new, by decide,
    overwrite_last_write_wins trie_new Reachable.new (cstr "CAT") (by decide) 1 2⟩

/-- C3 (insert fails exactly on invalid symbols).  On every reachable trie, for
every key and value, `trie_insert` returns, and it returns `false` if and only
if the key contains a character outside the alphabet; otherwise it returns
`true`. -/
theorem insert_fails_iff_invalid_symbol (t : trie_t) (ht : Reachable t) (k : List Int)
    (v : Int) :
    ∃ b t1, trie_insert t k v = some (b, t1) ∧
      (b = false ↔ ∃ c ∈ k, ¬ in_alphabet c) ∧
      ((∀ c ∈ k, in_alphabet c) → b = true) := by
  obtain ⟨b, t1, h1, hb, _, _⟩ := trie_insert_spec k t v ht.wf
  refine ⟨b, t1, h1, ?_, fun h => hb.mpr h⟩
  rw [← not_valid_key_iff, ← hb]
  cases b <;> simp

/-- Instance of C3: the key `"A1"` on a new trie. -/
theorem insert_fails_iff_invalid_symbol_witness :
    Reachable trie_new ∧
    ∃ b t1, trie_insert trie_new (cstr "A1") 5 = some (b, t1) ∧
      (b = false ↔ ∃ c ∈ cstr "A1", ¬ in_alphabet c) ∧
      ((∀ c ∈ cstr "A1", in_alphabet c) → b = true) :=
  ⟨Reachable.new, insert_fails_iff_invalid_symbol trie_new Reachable.new (cstr "A1") 5⟩

/-- C4 (lookup of a malformed key is "not found").  On every reachable trie,
whatever calls built it, `trie_get` of a key that contains a character outside
the alphabet returns `false` and leaves `*value_out` as it was. -/
theorem get_malformed_key_not_found (t : trie_t) (ht : Reachable t) (k : List Int)
    (hk : ∃ c ∈ k, ¬ in_alphabet c) (out : Int) :
    trie_get t k out = some (false, out) :=
  trie_get_not_valid k t out ht.wf ((not_valid_key_iff k).mpr hk)

/-- Instance of C4: the key `"A1"` after an attempt to insert it. -/
theorem get_malformed_key_not_found_witness :
    Reachable (.node (2 ^ 26) 0 [trie_new]) ∧ (∃ c ∈ cstr "A1", ¬ in_alphabet c) ∧
    trie_get (.node (2 ^ 26) 0 [trie_new]) (cstr "A1") 9 = some (false, 9) :=
  ⟨Reachable.insert (cstr "A1") 5 Reachable.new rfl, by decide,
    get_malformed_key_not_found _ (Reachable.insert (cstr "A1") 5 Reachable.new rfl) _
      (by decide) 9⟩

/-- C5 (a failed insert changes no observable mapping).  On every reachable trie,
when `trie_insert(t, k, v)` returns `false`, every `trie_get(t, q)` gives after
the call the same answer and the same value as before it.  The only mutation
is the addition of non-terminal nodes on the valid prefix of `k`: every node of
the trie is still there with its terminal flag and value, and a node that was
not there is non-terminal and lies on a prefix of `k` made of alphabet symbols. -/
theorem failed_insert_preserves_lookups (t : trie_t) (ht : Reachable t) (k : List Int)
    (v : Int) (t1 : trie_t) (hfail : trie_insert t k v = some (false, t1)) :
    (∀ (q : List Int) (out : Int), trie_get t1 q out = trie_get t q out) ∧
    (∀ (p : List Int) (n : trie_t), node_at t p = some n →
      ∃ n1, node_at t1 p = some n1 ∧ n1.bitfield &&& 1 = n.bitfield &&& 1 ∧
        n1.value = n.value) ∧
    (∀ (p : List Int) (n1 : trie_t), node_at t1 p = some n1 → node_at t p = none →
      n1.bitfield &&& 1 = 0 ∧ p <+: k ∧ valid_key p) := by
  refine ⟨?_, ?_, ?_⟩
  · intro q out
    obtain ⟨b, t2, h1, hb, _, hget⟩ := trie_insert_spec k t v ht.wf
    rw [h1] at hfail
    injection hfail with hfail
    injection hfail with hb2 ht2
    subst hb2 ht2
    rw [hget, if_neg]
    rintro ⟨hk, _⟩
    exact absurd (hb.mpr hk) (by simp)
  · intro p n hn
    obtain ⟨n1, h1, h2, h3⟩ := (failed_insert_nodes k t v t1 ht.wf hfail p).1 n hn
    exact ⟨n1, h1, by rw [and_one_eq, and_one_eq, h2], h3⟩
  · intro p n1 h1 h2
    obtain ⟨h3, h4, h5⟩ := (failed_insert_nodes k t v t1 ht.wf hfail p).2 n1 h1 h2
    exact ⟨by rw [and_one_eq, h3]; rfl, h4, h5⟩

/-- Instance of C5: the failed insert of `"A1"` into a new trie, which leaves a
non-terminal node for `"A"`. -/
theorem failed_insert_preserves_lookups_witness :
    Reachable trie_new ∧
    trie_insert trie_new (cstr "A1") 5 = some (false, .node (2 ^ 26) 0 [trie_new]) ∧
    ((∀ (q : List Int) (out : Int),
      trie_get (.node (2 ^ 26) 0 [trie_new]) q out = trie_get trie_new q out) ∧
    (∀ (p : List Int) (n : trie_t), node_at trie_new p = some n →
      ∃ n1, node_at (.node (2 ^ 26) 0 [trie_new]) p = some n1 ∧
        n1.bitfield &&& 1 = n.bitfield &&& 1 ∧ n1.value = n.value) ∧
    (∀ (p : List Int) (n1 : trie_t), node_at (.node (2 ^ 26) 0 [trie_new]) p = some n1 →
      node_at trie_new p = none → n1.bitfield &&& 1 = 0 ∧ p <+: cstr "A1" ∧ valid_key p)) :=
  ⟨Reachable.new, rfl,
    failed_insert_preserves_lookups trie_new Reachable.new (cstr "A1") 5 _ rfl⟩

/-- C6 (prefix independence).  For every key `k` and non-empty suffix `s` made
of alphabet symbols and all values `v1`, `v2`: after the inserts of `k` with
`v1` and of `k` followed by `s` with `v2` into a new trie, in either order,
`trie_get` of `k` returns `v1` and `trie_get` of `k` followed by `s` returns
`v2`.  After the inserts of `("CAT", 1)` and `("CATS", 2)` the node of `"CAT"`
has its terminal flag set and exactly one child. -/
theorem prefix_independence (k s : List Int) (hk : valid_key k) (hs : valid_key s)
    (hne : s ≠ []) (v1 v2 : Int) :
    (∃ t, insert_seq trie_new [(k, v1), (k ++ s, v2)] = some ([true, true], t) ∧
      ∀ out : Int, trie_get t k out = some (true, v1) ∧
        trie_get t (k ++ s) out = some (true, v2)) ∧
    (∃ t, insert_seq trie_new [(k ++ s, v2), (k, v1)] = some ([true, true], t) ∧
      ∀ out : Int, trie_get t k out = some (true, v1) ∧
        trie_get t (k ++ s) out = some (true, v2)) ∧
    (∃ t n, insert_seq trie_new [(cstr "CAT", 1), (cstr "CATS", 2)] = some ([true, true], t) ∧
      node_at t (cstr "CAT") = some n ∧ n.bitfield &&& 1 = 1 ∧ NO_OF_CHILD n = 1 ∧
        n.children.length = 1) := by
  have hks : valid_key (k ++ s) := by
    intro c hc
    rcases List.mem_append.mp hc with h | h
    · exact hk c h
    · exact hs c h
  have hdiff : k ≠ k ++ s := by
    intro h
    have : (k ++ s).length = k.length := by rw [← h]
    rw [List.length_append] at this
    exact hne (List.length_eq_zero.mp (by omega))
  refine ⟨?_, ?_, ?_⟩
  · obtain ⟨t, hseq, _, hget⟩ :=
      insert_seq_spec [(k, v1), (k ++ s, v2)] trie_new WF_trie_new
    have hnd : (([(k, v1), (k ++ s, v2)] : List (List Int × Int)).map
        (fun call => call.1)).Nodup := by simp [hdiff]
    have hv : ∀ call ∈ ([(k, v1), (k ++ s, v2)] : List (List Int × Int)),
        valid_key call.1 := by
      intro call hcall
      simp only [List.mem_cons, List.mem_singleton, List.not_mem_nil, or_false] at hcall
      rcases hcall with h | h <;> rw [h] <;> assumption
    refine ⟨t, ?_, ?_⟩
    · rw [hseq]; simp [hk, hks]
    · intro out
      have e1 := @last_valid_call_of_mem _ hnd hv (k, v1) (by simp)
      have e2 := @last_valid_call_of_mem _ hnd hv (k ++ s, v2) (by simp)
      simp only [] at e1 e2
      rw [hget, hget, e1, e2]
      exact ⟨rfl, rfl⟩
  · obtain ⟨t, hseq, _, hget⟩ :=
      insert_seq_spec [(k ++ s, v2), (k, v1)] trie_new WF_trie_new
    have hnd : (([(k ++ s, v2), (k, v1)] : List (List Int × Int)).map
        (fun call => call.1)).Nodup := by simp [Ne.symm hdiff]
    have hv : ∀ call ∈ ([(k ++ s, v2), (k, v1)] : List (List Int × Int)),
        valid_key call.1 := by
      intro call hcall
      simp only [List.mem_cons, List.mem_singleton, List.not_mem_nil, or_false] at hcall
      rcases hcall with h | h <;> rw [h] <;> assumption
    refine ⟨t, ?_, ?_⟩
    · rw [hseq]; simp [hk, hks]
    · intro out
      have e1 := @last_valid_call_of_mem _ hnd hv (k, v1) (by simp)
      have e2 := @last_valid_call_of_mem _ hnd hv (k ++ s, v2) (by simp)
      simp only [] at e1 e2
      rw [hget, hget, e1, e2]
      exact ⟨rfl, rfl⟩
  · exact ⟨_, _, rfl, rfl, rfl, rfl, rfl⟩

/-- Instance of C6: the keys `"CAT"` and `"CATS"`. -/
theorem prefix_independence_witness :
    valid_key (cstr "CAT") ∧ valid_key (cstr "S") ∧ cstr "S" ≠ [] ∧
    ((∃ t, insert_seq trie_new [(cstr "CAT", 1), (cstr "CAT" ++ cstr "S", 2)]
        = some ([true, true], t) ∧
      ∀ out : Int, trie_get t (cstr "CAT") out = some (true, 1) ∧
        trie_get t (cstr "CAT" ++ cstr "S") out = some (true, 2)) ∧
    (∃ t, insert_seq trie_new [(cstr "CAT" ++ cstr "S", 2), (cstr "CAT", 1)]
        = some ([true, true], t) ∧
      ∀ out : Int, trie_get t (cstr "CAT") out = some (true, 1) ∧
        trie_get t (cstr "CAT" ++ cstr "S") out = some (true, 2)) ∧
    (∃ t n, insert_seq trie_new [(cstr "CAT", 1), (cstr "CATS", 2)] = some ([true, true], t) ∧
      node_at t (cstr "CAT") = some n ∧ n.bitfield &&& 1 = 1 ∧ NO_OF_CHILD n = 1 ∧
        n.children.length = 1)) :=
  ⟨by decide, by decide, by decide,
    prefix_independence (cstr "CAT") (cstr "S") (by decide) (by decide) (by decide) 1 2⟩

/-- C7 (empty key).  For every trie and value, `trie_insert(t, "", v)` returns
`true`; it sets bit 0 of the bitfield of the root and the value of the root to
`v`, leaves every other bit of that bitfield and the children of the root
unchanged, and afterwards `trie_get(t, "")` returns `true` with the value `v`. -/
theorem insert_empty_key (t : trie_t) (v : Int) :
    ∃ t1, trie_insert t [] v = some (true, t1) ∧
      t1.bitfield = t.bitfield ||| 1 ∧ t1.bitfield.testBit 0 = true ∧ t1.value = v ∧
      (∀ i : Nat, i ≠ 0 → t1.bitfield.testBit i = t.bitfield.testBit i) ∧
      t1.children = t.children ∧
      ∀ out : Int, trie_get t1 [] out = some (true, v) := by
  cases t with
  | node bf v0 cs =>
  have h0 : (bf ||| 1).testBit 0 = true := by simp
  refine ⟨.node (bf ||| 1) v cs, rfl, rfl, h0, rfl, ?_, rfl, ?_⟩
  · intro i hi
    exact testBit_or_one bf (Nat.one_le_iff_ne_zero.mpr hi)
  · intro out
    rw [trie_get_nil, if_pos h0]

/-- C8 (the scenario of `main`).  From a new trie the inserts of `("GOOD", 12)`,
`("", 0)`, `("W", -1)`, `("-_ _-", 2342)` return `true` and the inserts of
`("123", 999)`, `("*", 0)`, `("()", 2)`, `("+}{", 4)` return `false`;
afterwards `trie_get` returns `true` with 12, 0, -1 and 2342 for the first
four keys and `false` for the last four. -/
theorem main_scenario :
    ∃ t, insert_seq trie_new
        [(cstr "GOOD", 12), (cstr "", 0), (cstr "W", -1), (cstr "-_ _-", 2342),
         (cstr "123", 999), (cstr "*", 0), (cstr "()", 2), (cstr "+\x7d\x7b", 4)]
        = some ([true, true, true, true, false, false, false, false], t) ∧
      ∀ out : Int,
        trie_get t (cstr "GOOD") out = some (true, 12) ∧
        trie_get t (cstr "") out = some (true, 0) ∧
        trie_get t (cstr "W") out = some (true, -1) ∧
        trie_get t (cstr "-_ _-") out = some (true, 2342) ∧
        trie_get t (cstr "123") out = some (false, out) ∧
        trie_get t (cstr "*") out = some (false, out) ∧
        trie_get t (cstr "()") out = some (false, out) ∧
        trie_get t (cstr "+\x7d\x7b") out = some (false, out) :=
  ⟨_, rfl, fun _ => ⟨rfl, rfl, rfl, rfl, rfl, rfl, rfl, rfl⟩⟩

/-- C9 (the trie refines a finite map).  For every finite sequence of
`trie_insert` calls on a new trie, with any keys and values, and every query
key `q`: the calls all return, and afterwards `trie_get(t, q)` returns `true`
with value `v` if and only if the last call whose key equals `q` and is made of
alphabet symbols only carried `v`; when there is no such call it returns
`false` and leaves `*value_out` as it was. -/
theorem trie_refines_finite_map (calls : List (List Int × Int)) (q : List Int) (out : Int) :
    ∃ bs t, insert_seq trie_new calls = some (bs, t) ∧
      (∀ v : Int, trie_get t q out = some (true, v) ↔ last_valid_call calls q = some v) ∧
      (last_valid_call calls q = none → trie_get t q out = some (false, out)) := by
  obtain ⟨t, hseq, _, hget⟩ := insert_seq_spec calls trie_new WF_trie_new
  refine ⟨_, t, hseq, ?_, ?_⟩
  · intro v
    rw [hget]
    cases last_valid_call calls q with
    | some w => simp
    | none => simp [trie_get_trie_new]
  · intro h
    rw [hget, h]
    exact trie_get_trie_new q out

/-- C10 (`get_bit_pos` is a total membership test of the alphabet).  For every
character value `c`, `get_bit_pos(c)` is `-1` if and only if `c` is none of
`A`-`Z`, underscore, period, hyphen, apostrophe and space; hence it is `-1` on
every digit, lowercase letter and control character, and on the other
punctuation characters. -/
theorem get_bit_pos_membership (c : Int) :
    (get_bit_pos c = -1 ↔ ¬ in_alphabet c) ∧
    (48 ≤ c ∧ c ≤ 57 → get_bit_pos c = -1) ∧
    (97 ≤ c ∧ c ≤ 122 → get_bit_pos c = -1) ∧
    ((0 ≤ c ∧ c ≤ 31) ∨ c = 127 → get_bit_pos c = -1) ∧
    ((33 ≤ c ∧ c ≤ 38) ∨ (40 ≤ c ∧ c ≤ 44) ∨ c = 47 ∨ (58 ≤ c ∧ c ≤ 64) ∨
      (91 ≤ c ∧ c ≤ 94) ∨ c = 96 ∨ (123 ≤ c ∧ c ≤ 126) → get_bit_pos c = -1) := by
  refine ⟨get_bit_pos_eq_neg_one_iff c, ?_, ?_, ?_, ?_⟩ <;>
  · intro h
    unfold get_bit_pos
    split_ifs <;> omega

/-! ## Bit positions and child indices -/

theorem exist_child_ne_zero_iff (t : trie_t) (p : Nat) :
    EXIST_CHILD t (p : Int) ≠ 0 ↔ t.bitfield.testBit p = true := by
  cases t with
  | node bf v cs =>
  rw [exist_child_eq]
  by_cases h : bf.testBit p = true <;> simp [h, trie_t.bitfield]

theorem exist_child_eq_one_iff (t : trie_t) (p : Nat) :
    EXIST_CHILD t (p : Int) = 1 ↔ t.bitfield.testBit p = true := by
  cases t with
  | node bf v cs =>
  rw [exist_child_eq]
  by_cases h : bf.testBit p = true <;> simp [h, trie_t.bitfield]

theorem WF.of_node {n t : trie_t} (hn : is_node_of n t) : WF t → WF n := by
  induction hn with
  | root => exact id
  | @child c t hmem _ ih =>
    intro ht
    cases t
    exact ih (ht.child c hmem)

theorem rank_eq_card (bf p : Nat) :
    rank bf p = ((Finset.Ico p 32).filter (fun j => bf.testBit j = true)).card := by
  unfold rank
  rw [Finset.card_filter]

/-- C14 (`get_bit_pos` gives unique positions that avoid the terminal flag).
For all symbols `c` and `d` of the alphabet, `get_bit_pos(c)` lies in [1, 31],
so it is never 0, the bit of the terminal flag, and `get_bit_pos(c) =
get_bit_pos(d)` implies `c = d`. -/
theorem get_bit_pos_unique_positions (c d : Int) (hc : in_alphabet c) (hd : in_alphabet d) :
    (1 ≤ get_bit_pos c ∧ get_bit_pos c ≤ 31) ∧ get_bit_pos c ≠ 0 ∧
    (get_bit_pos c = get_bit_pos d → c = d) := by
  have h := get_bit_pos_bounds hc
  exact ⟨h, by omega, fun he => get_bit_pos_injective hd he⟩

/-- Instance of C14: the symbols `A` and `Z`. -/
theorem get_bit_pos_unique_positions_witness :
    in_alphabet 65 ∧ in_alphabet 90 ∧
    ((1 ≤ get_bit_pos 65 ∧ get_bit_pos 65 ≤ 31) ∧ get_bit_pos 65 ≠ 0 ∧
    (get_bit_pos 65 = get_bit_pos 90 → (65 : Int) = 90)) :=
  ⟨by decide, by decide, get_bit_pos_unique_positions 65 90 (by decide) (by decide)⟩

/-- C12 (density invariant).  In every trie reachable from a new trie by
`trie_insert` calls, successful or failed, the children array of every node
has exactly `count_set_bits(bitfield) - (bitfield & 1)` slots, which is the
number of set bits of the bitfield at the positions 1 to 31. -/
theorem density_invariant (t : trie_t) (ht : Reachable t) (n : trie_t)
    (hn : is_node_of n t) :
    (n.children.length : Int) = NO_OF_CHILD n ∧
    n.children.length
      = ((Finset.Ico 1 32).filter (fun j => n.bitfield.testBit j = true)).card := by
  have hwf := WF.of_node hn ht.wf
  cases n with
  | node bf v cs =>
  have hlen := hwf.length
  refine ⟨?_, ?_⟩
  · rw [no_of_child_eq hwf.lt]
    exact_mod_cast hlen
  · rw [← rank_eq_card]
    exact hlen

/-- Instance of C12: the node left for `"A"` by the failed insert of `"A1"`. -/
theorem density_invariant_witness :
    Reachable (.node (2 ^ 26) 0 [trie_new]) ∧
    is_node_of trie_new (.node (2 ^ 26) 0 [trie_new]) ∧
    ((trie_new.children.length : Int) = NO_OF_CHILD trie_new ∧
    trie_new.children.length
      = ((Finset.Ico 1 32).filter (fun j => trie_new.bitfield.testBit j = true)).card) :=
  ⟨Reachable.insert (cstr "A1") 5 Reachable.new rfl,
    is_node_of.child (List.mem_singleton.mpr rfl) (is_node_of.root trie_new),
    density_invariant _ (Reachable.insert (cstr "A1") 5 Reachable.new rfl) trie_new
      (is_node_of.child (List.mem_singleton.mpr rfl) (is_node_of.root trie_new))⟩

/-- C15, as stated, fails.  After the inserts of `"Z"` (bit 1) and `"Y"` (bit 2)
into a new trie the root has the bits 1 and 2 set, the index computed for
bit 1 is 1 and the index computed for bit 2 is 0: the child of the lower bit
has the larger index. -/
theorem children_increasing_counterexample :
    insert_seq trie_new [(cstr "Z", 1), (cstr "Y", 2)]
      = some ([true, true], .node 6 0 [.node 1 2 [], .node 1 1 []]) ∧
    EXIST_CHILD (.node 6 0 [.node 1 2 [], .node 1 1 []]) 1 = 1 ∧
    EXIST_CHILD (.node 6 0 [.node 1 2 [], .node 1 1 []]) 2 = 1 ∧
    GET_CHILD_INDEX (.node 6 0 [.node 1 2 [], .node 1 1 []]) 1 = 1 ∧
    GET_CHILD_INDEX (.node 6 0 [.node 1 2 [], .node 1 1 []]) 2 = 0 ∧
    ¬ (GET_CHILD_INDEX (.node 6 0 [.node 1 2 [], .node 1 1 []]) 1
        < GET_CHILD_INDEX (.node 6 0 [.node 1 2 [], .node 1 1 []]) 2) :=
  ⟨rfl, rfl, rfl, rfl, rfl, by decide⟩

/-- C15, amended (children are ordered by decreasing bit position).  For every
node with a 32-bit bitfield and every two set bit positions `1 ≤ p < q ≤ 31`,
the index `GET_CHILD_INDEX(node, q)` is non-negative and strictly smaller than
`GET_CHILD_INDEX(node, p)`. -/
theorem children_decreasing_bit_position (bf : Nat) (hbf : bf < 2 ^ 32) (v : Int)
    (cs : List trie_t) (p q : Nat) (_hp : 1 ≤ p) (hpq : p < q) (hq : q ≤ 31)
    (hsp : EXIST_CHILD (.node bf v cs) p = 1) (hsq : EXIST_CHILD (.node bf v cs) q = 1) :
    0 ≤ GET_CHILD_INDEX (.node bf v cs) q ∧
    GET_CHILD_INDEX (.node bf v cs) q < GET_CHILD_INDEX (.node bf v cs) p := by
  have hbp : bf.testBit p = true := (exist_child_eq_one_iff (.node bf v cs) p).mp hsp
  have hbq : bf.testBit q = true := (exist_child_eq_one_iff (.node bf v cs) q).mp hsq
  have h1 := rank_lt hpq (by omega) hbp
  have h2 := rank_pos (show q < 32 by omega) hbq
  rw [get_child_index_eq hbf, get_child_index_eq hbf]
  omega

/-- Instance of amended C15: the root after the inserts of `"Z"` and `"Y"`. -/
theorem children_decreasing_bit_position_witness :
    (6 : Nat) < 2 ^ 32 ∧ 1 ≤ 1 ∧ 1 < 2 ∧ 2 ≤ 31 ∧
    EXIST_CHILD (.node 6 0 [.node 1 2 [], .node 1 1 []]) ((1 : Nat) : Int) = 1 ∧
    EXIST_CHILD (.node 6 0 [.node 1 2 [], .node 1 1 []]) ((2 : Nat) : Int) = 1 ∧
    (0 ≤ GET_CHILD_INDEX (.node 6 0 [.node 1 2 [], .node 1 1 []]) ((2 : Nat) : Int) ∧
    GET_CHILD_INDEX (.node 6 0 [.node 1 2 [], .node 1 1 []]) ((2 : Nat) : Int)
      < GET_CHILD_INDEX (.node 6 0 [.node 1 2 [], .node 1 1 []]) ((1 : Nat) : Int)) :=
  ⟨by decide, by decide, by decide, by decide, rfl, rfl,
    children_decreasing_bit_position 6 (by decide) 0 [.node 1 2 [], .node 1 1 []] 1 2
      (by decide) (by decide) (by decide) rfl rfl⟩

theorem trie_get_total (q : List Int) : ∀ (t : trie_t) (out : Int), WF t →
    ∃ r, trie_get t q out = some r := by
  induction q with
  | nil =>
    intro t out _
    rw [trie_get_nil_eq]
    by_cases h : t.bitfield.testBit 0 = true
    · exact ⟨_, if_pos h⟩
    · exact ⟨_, if_neg h⟩
  | cons d q ih =>
    intro t out ht
    by_cases hd : in_alphabet d
    · obtain ⟨p, hp, hp1, hp32⟩ := get_bit_pos_nat hd
      rw [trie_get_cons_getD ht hp hp1 hp32]
      exact ih _ out (ht.subtrie_getD_wf hp32)
    · exact ⟨_, trie_get_cons_invalid t hd q out⟩

/-- C18 (child indexing is in bounds and one-to-one).  For every node with a
32-bit bitfield and every set bit position `p` in [1, 31], `GET_CHILD_INDEX =
count_set_bits(bitfield >> p) - 1` lies in [0, `NO_OF_CHILD`), and distinct set
positions give distinct indices.  Hence in every trie with the density
invariant the slot read for a set bit is a slot of the children array, every
`trie_get` and `trie_insert` returns without a read outside the array, and
when a child is created the move shifts exactly `child_no - index - 1 ≥ 0`
slots, the slots from `index` to the end of the old array. -/
theorem child_index_in_bounds (bf : Nat) (hbf : bf < 2 ^ 32) (v : Int) (cs : List trie_t) :
    (∀ p : Nat, 1 ≤ p → p ≤ 31 → EXIST_CHILD (.node bf v cs) p ≠ 0 →
      GET_CHILD_INDEX (.node bf v cs) p = count_set_bits (bf >>> p) - 1 ∧
      0 ≤ GET_CHILD_INDEX (.node bf v cs) p ∧
      GET_CHILD_INDEX (.node bf v cs) p < NO_OF_CHILD (.node bf v cs)) ∧
    (∀ p q : Nat, 1 ≤ p → p ≤ 31 → 1 ≤ q → q ≤ 31 →
      EXIST_CHILD (.node bf v cs) p ≠ 0 → EXIST_CHILD (.node bf v cs) q ≠ 0 → p ≠ q →
      GET_CHILD_INDEX (.node bf v cs) p ≠ GET_CHILD_INDEX (.node bf v cs) q) ∧
    (∀ t : trie_t, WF t →
      (∀ p : Nat, 1 ≤ p → p ≤ 31 → EXIST_CHILD t p ≠ 0 →
        ∃ child, child_at t.children (GET_CHILD_INDEX t p) = some child) ∧
      (∀ (q : List Int) (out : Int), ∃ r, trie_get t q out = some r) ∧
      (∀ (k : List Int) (w : Int), ∃ r, trie_insert t k w = some r) ∧
      (∀ p : Nat, 1 ≤ p → p ≤ 31 → EXIST_CHILD t p = 0 →
        0 ≤ NO_OF_CHILD (.node (t.bitfield ||| (1 <<< p)) t.value t.children)
            - GET_CHILD_INDEX (.node (t.bitfield ||| (1 <<< p)) t.value t.children) p - 1 ∧
        ((t.children.drop
            (GET_CHILD_INDEX (.node (t.bitfield ||| (1 <<< p)) t.value t.children) p).toNat).length
            : Int)
          = NO_OF_CHILD (.node (t.bitfield ||| (1 <<< p)) t.value t.children)
            - GET_CHILD_INDEX (.node (t.bitfield ||| (1 <<< p)) t.value t.children) p - 1 ∧
        ∃ r, ensure_child t p = some r)) := by
  refine ⟨?_, ?_, ?_⟩
  · intro p hp1 hp31 hset
    have hb : bf.testBit p = true := (exist_child_ne_zero_iff (.node bf v cs) p).mp hset
    have h1 := rank_pos (show p < 32 by omega) hb
    have h2 : rank bf p ≤ rank bf 1 := rank_anti hp1
    refine ⟨by simp [GET_CHILD_INDEX, trie_t.bitfield], ?_, ?_⟩
    · rw [get_child_index_eq hbf]; omega
    · rw [get_child_index_eq hbf, no_of_child_eq hbf]; omega
  · intro p q _ hp31 _ hq31 hsp hsq hne
    have hbp : bf.testBit p = true := (exist_child_ne_zero_iff (.node bf v cs) p).mp hsp
    have hbq : bf.testBit q = true := (exist_child_ne_zero_iff (.node bf v cs) q).mp hsq
    have h := rank_pred_ne (show p < 32 by omega) (show q < 32 by omega) hbp hbq hne
    have h1 := rank_pos (show p < 32 by omega) hbp
    have h2 := rank_pos (show q < 32 by omega) hbq
    rw [get_child_index_eq hbf, get_child_index_eq hbf]
    omega
  · intro t ht
    cases t with
    | node b w ds =>
    refine ⟨?_, fun q out => trie_get_total q _ out ht, ?_, ?_⟩
    · intro p hp1 hp31 hset
      have hb : b.testBit p = true := (exist_child_ne_zero_iff (.node b w ds) p).mp hset
      have hidx := ht.index_lt hp1 (show p < 32 by omega) hb
      have hpos := rank_pos (show p < 32 by omega) hb
      have hcast : (rank b p : Int) - 1 = ((rank b p - 1 : Nat) : Int) := by omega
      refine ⟨ds[rank b p - 1], ?_⟩
      rw [get_child_index_eq ht.lt, hcast, child_at_natCast]
      simp [trie_t.children, hidx]
    · intro k x
      obtain ⟨r, t1, h, _⟩ := trie_insert_spec k _ x ht
      exact ⟨_, h⟩
    · intro p hp1 hp31 hclear
      have hb : b.testBit p = false := by
        have := (exist_child_ne_zero_iff (.node b w ds) p).not.mp (by simpa using hclear)
        simpa using this
      have hp32 : p < 32 := by omega
      have hbf2 := or_bit_lt ht.lt hp32
      have hr1 : rank (b ||| (1 <<< p)) 1 = rank b 1 + 1 := by
        rw [rank_or_bit hp32 hb]; simp [hp1]
      have hrp : rank (b ||| (1 <<< p)) p = rank b p + 1 := by
        rw [rank_or_bit hp32 hb]; simp
      have hle : rank b p ≤ rank b 1 := rank_anti hp1
      have hlen := ht.length
      simp only [trie_t.bitfield, trie_t.value, trie_t.children]
      rw [get_child_index_eq hbf2, no_of_child_eq hbf2, hr1, hrp]
      have hidx : ((rank b p + 1 : Nat) : Int) - 1 = ((rank b p : Nat) : Int) := by omega
      rw [hidx, Int.toNat_ofNat, List.length_drop]
      refine ⟨by omega, by omega, ?_⟩
      exact ⟨_, ensure_child_new ht hp1 hp32 hb⟩

/-- Instance of C18: the bitfield of the root after the inserts of `"Z"` and
`"Y"`. -/
theorem child_index_in_bounds_witness :
    (6 : Nat) < 2 ^ 32 ∧
    ((∀ p : Nat, 1 ≤ p → p ≤ 31 → EXIST_CHILD (.node 6 0 []) p ≠ 0 →
      GET_CHILD_INDEX (.node 6 0 []) p = count_set_bits (6 >>> p) - 1 ∧
      0 ≤ GET_CHILD_INDEX (.node 6 0 []) p ∧
      GET_CHILD_INDEX (.node 6 0 []) p < NO_OF_CHILD (.node 6 0 [])) ∧
    (∀ p q : Nat, 1 ≤ p → p ≤ 31 → 1 ≤ q → q ≤ 31 →
      EXIST_CHILD (.node 6 0 []) p ≠ 0 → EXIST_CHILD (.node 6 0 []) q ≠ 0 → p ≠ q →
      GET_CHILD_INDEX (.node 6 0 []) p ≠ GET_CHILD_INDEX (.node 6 0 []) q) ∧
    (∀ t : trie_t, WF t →
      (∀ p : Nat, 1 ≤ p → p ≤ 31 → EXIST_CHILD t p ≠ 0 →
        ∃ child, child_at t.children (GET_CHILD_INDEX t p) = some child) ∧
      (∀ (q : List Int) (out : Int), ∃ r, trie_get t q out = some r) ∧
      (∀ (k : List Int) (w : Int), ∃ r, trie_insert t k w = some r) ∧
      (∀ p : Nat, 1 ≤ p → p ≤ 31 → EXIST_CHILD t p = 0 →
        0 ≤ NO_OF_CHILD (.node (t.bitfield ||| (1 <<< p)) t.value t.children)
            - GET_CHILD_INDEX (.node (t.bitfield ||| (1 <<< p)) t.value t.children) p - 1 ∧
        ((t.children.drop
            (GET_CHILD_INDEX (.node (t.bitfield ||| (1 <<< p)) t.value t.children) p).toNat).length
            : Int)
          = NO_OF_CHILD (.node (t.bitfield ||| (1 <<< p)) t.value t.children)
            - GET_CHILD_INDEX (.node (t.bitfield ||| (1 <<< p)) t.value t.children) p - 1 ∧
        ∃ r, ensure_child t p = some r))) :=
  ⟨by decide, child_index_in_bounds 6 (by decide) 0 []⟩

/-! ## The node after one level of `trie_insert`, explicitly -/

theorem slot_set (x y : trie_t) : ∀ (cs : List trie_t) (i : Nat), i ≤ cs.length →
    (cs.take i ++ x :: cs.drop i).set i y = cs.take i ++ y :: cs.drop i := by
  intro cs i
  induction i generalizing cs with
  | zero => intro _; simp
  | succ i ih =>
    intro hi
    cases cs with
    | nil => simp at hi
    | cons a cs =>
      simp only [List.take_succ_cons, List.drop_succ_cons, List.cons_append, List.set_cons_succ]
      rw [ih cs (by simpa using hi)]

theorem trie_insert_cons_exists {bf : Nat} {v0 : Int} {cs : List trie_t}
    (ht : WF (.node bf v0 cs)) {c : Int} {p : Nat} (hc : get_bit_pos c = (p : Int))
    (hp1 : 1 ≤ p) (hp32 : p < 32) (hset : bf.testBit p = true) (k : List Int) (v : Int) :
    ∃ child, cs[rank bf p - 1]? = some child ∧ WF child ∧
      trie_insert (.node bf v0 cs) (c :: k) v
        = match trie_insert child k v with
          | none => none
          | some (b, child1) => some (b, .node bf v0 (cs.set (rank bf p - 1) child1)) := by
  have hidx := ht.index_lt hp1 hp32 hset
  have hchild : cs[rank bf p - 1]? = some cs[rank bf p - 1] := by simp [hidx]
  refine ⟨cs[rank bf p - 1], hchild, ht.child _ (List.getElem?_mem hchild), ?_⟩
  rw [trie_insert_cons hc (ensure_child_exists ht.lt v0 cs hp32 hset) hchild]
  rfl

theorem trie_insert_cons_new {bf : Nat} {v0 : Int} {cs : List trie_t}
    (ht : WF (.node bf v0 cs)) {c : Int} {p : Nat} (hc : get_bit_pos c = (p : Int))
    (hp1 : 1 ≤ p) (hp32 : p < 32) (hclear : bf.testBit p = false) (k : List Int) (v : Int) :
    rank bf p ≤ cs.length ∧
      trie_insert (.node bf v0 cs) (c :: k) v
        = match trie_insert trie_new k v with
          | none => none
          | some (b, child1) =>
            some (b, .node (bf ||| (1 <<< p)) v0
              (cs.take (rank bf p) ++ child1 :: cs.drop (rank bf p))) := by
  have hle : rank bf p ≤ cs.length := by rw [ht.length]; exact rank_anti hp1
  refine ⟨hle, ?_⟩
  rw [trie_insert_cons hc (ensure_child_new ht hp1 hp32 hclear)
    (getElem?_slot_eq cs trie_new hle)]
  cases trie_insert trie_new k v with
  | none => rfl
  | some r =>
    obtain ⟨b, child1⟩ := r
    simp only [trie_t.bitfield, trie_t.value, trie_t.children]
    rw [slot_set trie_new child1 cs _ hle]

/-! ## Nodes off the path of an insert -/

theorem node_at_trie_new_cons (d : Int) (q : List Int) : node_at trie_new (d :: q) = none := by
  cases h : node_at trie_new (d :: q) with
  | none => rfl
  | some n => exact absurd (node_at_trie_new h).1 (by simp)

theorem subtrie_or_one {bf : Nat} (hbf : bf < 2 ^ 32) (v v0 : Int) (cs : List trie_t) {p : Nat}
    (hp1 : 1 ≤ p) (hp : p < 32) :
    subtrie (.node (bf ||| 1) v cs) p = subtrie (.node bf v0 cs) p := by
  rw [subtrie_eq (or_one_lt hbf) v cs hp, subtrie_eq hbf v0 cs hp, testBit_or_one bf hp1,
    rank_or_one bf hp1]

theorem insert_off_path (k : List Int) : ∀ (t : trie_t) (v : Int) (b : Bool) (t1 : trie_t),
    WF t → trie_insert t k v = some (b, t1) →
    ∀ p : List Int, ¬ p <+: k → node_at t1 p = node_at t p := by
  induction k with
  | nil =>
    intro t v b t1 ht h p hp
    cases t with
    | node bf v0 cs =>
    simp only [trie_insert, trie_t.bitfield, trie_t.children, Option.some.injEq,
      Prod.mk.injEq] at h
    obtain ⟨_, ht1⟩ := h
    subst ht1
    cases p with
    | nil => exact absurd List.nil_prefix hp
    | cons d p =>
      by_cases hd : in_alphabet d
      · obtain ⟨pd, hpd, hpd1, hpd32⟩ := get_bit_pos_nat hd
        rw [node_at_cons _ hpd, node_at_cons _ hpd, subtrie_or_one ht.lt v v0 cs hpd1 hpd32]
      · rw [node_at_cons_invalid _ hd, node_at_cons_invalid _ hd]
  | cons c k ih =>
    intro t v b t1 ht h p hp
    by_cases hc : in_alphabet c
    · obtain ⟨pc, hpc, hpc1, hpc32⟩ := get_bit_pos_nat hc
      obtain ⟨b2, child1, hins, _, hwf1, _⟩ :=
        trie_insert_spec k ((subtrie t pc).getD trie_new) v (ht.subtrie_getD_wf hpc32)
      obtain ⟨t2, hstep, _, _, _, hsub, hother⟩ :=
        trie_insert_step ht hpc hpc1 hpc32 k v hins hwf1
      rw [hstep] at h
      injection h with h
      injection h with hb ht2
      subst hb ht2
      have ihc := ih _ v b2 child1 (ht.subtrie_getD_wf hpc32) hins
      cases p with
      | nil => exact absurd List.nil_prefix hp
      | cons d p =>
        by_cases hd : in_alphabet d
        · obtain ⟨pd, hpd, hpd1, hpd32⟩ := get_bit_pos_nat hd
          rw [node_at_cons t2 hpd, node_at_cons t hpd]
          by_cases hdc : d = c
          · subst hdc
            have hpp : pd = pc := by omega
            subst hpp
            have hp2 : ¬ p <+: k := fun h2 => hp ((List.cons_prefix_cons).mpr ⟨rfl, h2⟩)
            rw [hsub]
            simp only []
            rw [ihc p hp2]
            cases hsome : subtrie t pd with
            | some ch => rfl
            | none =>
              simp only [Option.getD_none]
              cases p with
              | nil => exact absurd List.nil_prefix hp2
              | cons e p => exact node_at_trie_new_cons e p
          · have hpne : pd ≠ pc := fun h => hdc (get_bit_pos_injective hc (by rw [hpd, hpc, h]))
            rw [hother pd hpd1 hpd32 hpne]
        · rw [node_at_cons_invalid t2 hd, node_at_cons_invalid t hd]
    · rw [trie_insert_cons_invalid t hc] at h
      injection h with h
      injection h with _ ht1
      subst ht1
      rfl

/-- C13 (a successful insert disturbs no other key).  On every reachable trie,
for every key `k` made of alphabet symbols and every value, `trie_insert`
returns `true` and every `trie_get(t, q)` with `q ≠ k` gives after the call the
same answer and the same value as before it.  The shift of the children never
moves a subtree to another symbol: every path that is not a prefix of `k`
leads after the call to the node it led to before. -/
theorem insert_disturbs_no_other_key (t : trie_t) (ht : Reachable t) (k : List Int)
    (hk : valid_key k) (v : Int) :
    ∃ t1, trie_insert t k v = some (true, t1) ∧
      (∀ (q : List Int) (out : Int), q ≠ k → trie_get t1 q out = trie_get t q out) ∧
      (∀ p : List Int, ¬ p <+: k → node_at t1 p = node_at t p) := by
  obtain ⟨b, t1, h1, hb, _, hget⟩ := trie_insert_spec k t v ht.wf
  rw [hb.mpr hk] at h1
  refine ⟨t1, h1, ?_, insert_off_path k t v true t1 ht.wf h1⟩
  intro q out hq
  rw [hget, if_neg (fun h => hq h.2)]

/-- Instance of C13: the insert of `"CAT"` into a new trie. -/
theorem insert_disturbs_no_other_key_witness :
    Reachable trie_new ∧ valid_key (cstr "CAT") ∧
    ∃ t1, trie_insert trie_new (cstr "CAT") 1 = some (true, t1) ∧
      (∀ (q : List Int) (out : Int), q ≠ cstr "CAT" →
        trie_get t1 q out = trie_get trie_new q out) ∧
      (∀ p : List Int, ¬ p <+: cstr "CAT" → node_at t1 p = node_at trie_new p) :=
  ⟨Reachable.new, by decide,
    insert_disturbs_no_other_key trie_new Reachable.new (cstr "CAT") (by decide) 1⟩

/-! ## Nodes with a zero bitfield -/

theorem no_empty_nodes_trie_new : no_empty_nodes trie_new := by
  intro c hc
  cases hc

theorem solid_of_no_empty_nodes {c : trie_t} (hb : c.bitfield ≠ 0) (hc : no_empty_nodes c) :
    ∀ n, is_node_of n c → n.bitfield ≠ 0 := by
  intro n hn
  cases hn with
  | root => exact hb
  | child hmem hsub => exact hc _ hmem n hsub

theorem no_empty_nodes_of_solid {c : trie_t} (h : ∀ n, is_node_of n c → n.bitfield ≠ 0) :
    no_empty_nodes c :=
  fun _ hd n hn => h n (is_node_of.child hd hn)

theorem bitfield_ne_zero_of_testBit {bf p : Nat} (h : bf.testBit p = true) : bf ≠ 0 := by
  intro h0
  rw [h0] at h
  simp at h

theorem successful_insert_no_empty_nodes (k : List Int) : ∀ (t : trie_t) (v : Int)
    (t1 : trie_t), WF t → no_empty_nodes t → trie_insert t k v = some (true, t1) →
    no_empty_nodes t1 ∧ t1.bitfield ≠ 0 := by
  induction k with
  | nil =>
    intro t v t1 _ hne h
    cases t with
    | node bf v0 cs =>
    simp only [trie_insert, trie_t.bitfield, trie_t.children, Option.some.injEq,
      Prod.mk.injEq, true_and] at h
    subst h
    refine ⟨hne, ?_⟩
    exact bitfield_ne_zero_of_testBit (show (bf ||| 1).testBit 0 = true by simp)
  | cons c k ih =>
    intro t v t1 ht hne h
    by_cases hc : in_alphabet c
    · obtain ⟨p, hp, hp1, hp32⟩ := get_bit_pos_nat hc
      cases t with
      | node bf v0 cs =>
      by_cases hset : bf.testBit p = true
      · obtain ⟨child, hchild, hwf, hins⟩ := trie_insert_cons_exists ht hp hp1 hp32 hset k v
        rw [hins] at h
        obtain ⟨b, child1, hc1, _⟩ := trie_insert_spec k child v hwf
        rw [hc1] at h
        simp only [Option.some.injEq, Prod.mk.injEq] at h
        obtain ⟨hb, ht1⟩ := h
        subst hb ht1
        have hmem := List.getElem?_mem hchild
        obtain ⟨h1, h2⟩ := ih child v child1 hwf
          (no_empty_nodes_of_solid (hne child hmem)) hc1
        refine ⟨?_, bitfield_ne_zero_of_testBit hset⟩
        intro x hx
        rcases List.mem_or_eq_of_mem_set hx with hx | hx
        · exact hne x hx
        · rw [hx]; exact solid_of_no_empty_nodes h2 h1
      · have hclear : bf.testBit p = false := by simpa using hset
        obtain ⟨_, hins⟩ := trie_insert_cons_new ht hp hp1 hp32 hclear k v
        rw [hins] at h
        obtain ⟨b, child1, hc1, _⟩ := trie_insert_spec k trie_new v WF_trie_new
        rw [hc1] at h
        simp only [Option.some.injEq, Prod.mk.injEq] at h
        obtain ⟨hb, ht1⟩ := h
        subst hb ht1
        obtain ⟨h1, h2⟩ := ih trie_new v child1 WF_trie_new no_empty_nodes_trie_new hc1
        refine ⟨?_, bitfield_ne_zero_of_testBit
          (show (bf ||| (1 <<< p)).testBit p = true by rw [testBit_or_bit]; simp)⟩
        intro x hx
        rcases mem_slot hx with hx | hx
        · rw [hx]; exact solid_of_no_empty_nodes h2 h1
        · exact hne x hx
    · rw [trie_insert_cons_invalid t hc] at h
      simp at h

theorem insert_seq_no_empty_nodes (calls : List (List Int × Int)) : ∀ (t0 : trie_t)
    (bs : List Bool) (t : trie_t), WF t0 → no_empty_nodes t0 →
    insert_seq t0 calls = some (bs, t) → (∀ b ∈ bs, b = true) → no_empty_nodes t := by
  induction calls with
  | nil =>
    intro t0 bs t _ h0 h _
    simp only [insert_seq, Option.some.injEq, Prod.mk.injEq] at h
    rw [← h.2]
    exact h0
  | cons call calls ih =>
    intro t0 bs t hwf h0 h hall
    obtain ⟨k, v⟩ := call
    obtain ⟨b, t1, h1, _, hwf1, _⟩ := trie_insert_spec k t0 v hwf
    obtain ⟨t2, h2, _, _⟩ := insert_seq_spec calls t1 hwf1
    simp only [insert_seq, h1, h2, Option.some.injEq, Prod.mk.injEq] at h
    obtain ⟨hbs, ht⟩ := h
    subst hbs ht
    have hb : b = true := hall b (List.mem_cons_self _ _)
    subst hb
    exact ih t1 _ t2 hwf1 (successful_insert_no_empty_nodes k t0 v t1 hwf h0 h1).1 h2
      (fun x hx => hall x (List.mem_cons_of_mem _ hx))

/-- C16, as stated, fails.  The insert of `"A1"` into a new trie returns `false`
and leaves under the root the node created for `"A"`, whose bitfield is 0. -/
theorem no_empty_nodes_counterexample :
    trie_insert trie_new (cstr "A1") 5 = some (false, .node (2 ^ 26) 0 [.node 0 0 []]) ∧
    ¬ no_empty_nodes (.node (2 ^ 26) 0 [.node 0 0 []]) :=
  ⟨rfl, fun h => h (.node 0 0 []) (List.mem_singleton.mpr rfl) (.node 0 0 [])
    (is_node_of.root _) rfl⟩

/-- C16, amended (no empty nodes after successful inserts).  On a reachable
trie in which no node other than the root has a zero bitfield, a `trie_insert`
call that returns `true` leaves a trie with the same property and with a
non-zero bitfield at the root.  In particular, after a sequence of
`trie_insert` calls on a new trie that all returned `true`, every node other
than the root is terminal or has a child. -/
theorem no_empty_nodes_after_success (t : trie_t) (ht : Reachable t)
    (hne : no_empty_nodes t) (k : List Int) (v : Int) (t1 : trie_t)
    (hins : trie_insert t k v = some (true, t1)) :
    (no_empty_nodes t1 ∧ t1.bitfield ≠ 0) ∧
    (∀ (calls : List (List Int × Int)) (bs : List Bool) (t2 : trie_t),
      insert_seq trie_new calls = some (bs, t2) → (∀ b ∈ bs, b = true) →
      no_empty_nodes t2) :=
  ⟨successful_insert_no_empty_nodes k t v t1 ht.wf hne hins,
    fun calls bs t2 h hall =>
      insert_seq_no_empty_nodes calls trie_new bs t2 WF_trie_new no_empty_nodes_trie_new h hall⟩

/-- Instance of amended C16: the insert of `"A"` into a new trie. -/
theorem no_empty_nodes_after_success_witness :
    Reachable trie_new ∧ no_empty_nodes trie_new ∧
    trie_insert trie_new (cstr "A") 5 = some (true, .node (2 ^ 26) 0 [.node 1 5 []]) ∧
    ((no_empty_nodes (.node (2 ^ 26) 0 [.node 1 5 []]) ∧
      (trie_t.node (2 ^ 26) 0 [.node 1 5 []]).bitfield ≠ 0) ∧
    (∀ (calls : List (List Int × Int)) (bs : List Bool) (t2 : trie_t),
      insert_seq trie_new calls = some (bs, t2) → (∀ b ∈ bs, b = true) →
      no_empty_nodes t2)) :=
  ⟨Reachable.new, no_empty_nodes_trie_new, rfl,
    no_empty_nodes_after_success trie_new Reachable.new no_empty_nodes_trie_new (cstr "A") 5 _
      rfl⟩

/-! ## Counting nodes -/

theorem node_count_node (bf : Nat) (v : Int) (cs : List trie_t) :
    node_count (.node bf v cs) = 1 + node_count_list cs := by
  rw [node_count]

theorem node_count_list_cons (c : trie_t) (cs : List trie_t) :
    node_count_list (c :: cs) = node_count c + node_count_list cs := by
  rw [node_count_list]

theorem node_count_list_nil : node_count_list [] = 0 := by
  rw [node_count_list]

theorem node_count_list_append (l1 l2 : List trie_t) :
    node_count_list (l1 ++ l2) = node_count_list l1 + node_count_list l2 := by
  induction l1 with
  | nil => simp [node_count_list_nil]
  | cons a l1 ih => rw [List.cons_append, node_count_list_cons, node_count_list_cons, ih]; omega

theorem node_count_list_slot (cs : List trie_t) (x : trie_t) (i : Nat) :
    node_count_list (cs.take i ++ x :: cs.drop i) = node_count_list cs + node_count x := by
  have h := node_count_list_append (cs.take i) (cs.drop i)
  rw [List.take_append_drop] at h
  rw [node_count_list_append, node_count_list_cons, h]
  omega

theorem node_count_list_set (x y : trie_t) : ∀ (cs : List trie_t) (i : Nat),
    cs[i]? = some y →
    node_count_list (cs.set i x) + node_count y = node_count_list cs + node_count x := by
  intro cs
  induction cs with
  | nil => intro i h; simp at h
  | cons a cs ih =>
    intro i h
    cases i with
    | zero =>
      simp only [List.getElem?_cons_zero, Option.some.injEq] at h
      subst h
      rw [List.set_cons_zero, node_count_list_cons, node_count_list_cons]
      omega
    | succ i =>
      rw [List.getElem?_cons_succ] at h
      have := ih i h
      rw [List.set_cons_succ, node_count_list_cons, node_count_list_cons]
      omega

theorem node_count_trie_new : node_count trie_new = 1 := by
  rw [trie_new, node_count_node, node_count_list_nil]

theorem node_at_cons_some {bf : Nat} (hbf : bf < 2 ^ 32) (v : Int) {cs : List trie_t}
    {c : Int} {p : Nat} (hc : get_bit_pos c = (p : Int)) (hp32 : p < 32)
    (hset : bf.testBit p = true) {child : trie_t} (hchild : cs[rank bf p - 1]? = some child)
    (q : List Int) : node_at (.node bf v cs) (c :: q) = node_at child q := by
  rw [node_at_cons _ hc, subtrie_eq hbf v cs hp32, if_pos hset, hchild]

theorem node_at_cons_none {bf : Nat} (hbf : bf < 2 ^ 32) (v : Int) (cs : List trie_t)
    {c : Int} {p : Nat} (hc : get_bit_pos c = (p : Int)) (hp32 : p < 32)
    (hclear : bf.testBit p = false) (q : List Int) :
    node_at (.node bf v cs) (c :: q) = none := by
  rw [node_at_cons _ hc, subtrie_eq hbf v cs hp32, if_neg (by simp [hclear])]

theorem insert_node_count (k : List Int) : ∀ (t : trie_t) (v : Int), WF t → valid_key k →
    ∃ t1 m, trie_insert t k v = some (true, t1) ∧ m ≤ k.length ∧
      (∃ n, node_at t (k.take m) = some n) ∧
      (∀ j, m < j → j ≤ k.length → node_at t (k.take j) = none) ∧
      node_count t1 = node_count t + (k.length - m) := by
  induction k with
  | nil =>
    intro t v _ _
    cases t with
    | node bf v0 cs =>
    refine ⟨.node (bf ||| 1) v cs, 0, rfl, le_refl _, ⟨_, rfl⟩, ?_, ?_⟩
    · intro j h1 h2
      simp at h2
      omega
    · rw [node_count_node, node_count_node]; rfl
  | cons c k ih =>
    intro t v ht hk
    have hc : in_alphabet c := hk c (List.mem_cons_self _ _)
    have hk2 : valid_key k := (valid_key_cons hc k).mp hk
    obtain ⟨p, hp, hp1, hp32⟩ := get_bit_pos_nat hc
    cases t with
    | node bf v0 cs =>
    by_cases hset : bf.testBit p = true
    · obtain ⟨child, hchild, hwf, hins⟩ := trie_insert_cons_exists ht hp hp1 hp32 hset k v
      obtain ⟨child1, m, hc1, hm, hex, hnone, hcount⟩ := ih child v hwf hk2
      refine ⟨.node bf v0 (cs.set (rank bf p - 1) child1), m + 1, ?_, ?_, ?_, ?_, ?_⟩
      · rw [hins, hc1]
      · simp only [List.length_cons]; omega
      · rw [List.take_succ_cons, node_at_cons_some ht.lt v0 hp hp32 hset hchild]
        exact hex
      · intro j h1 h2
        obtain ⟨j2, rfl⟩ : ∃ j2, j = j2 + 1 := ⟨j - 1, by omega⟩
        rw [List.take_succ_cons, node_at_cons_some ht.lt v0 hp hp32 hset hchild]
        exact hnone j2 (by omega) (by simpa using h2)
      · have hs := node_count_list_set child1 child cs (rank bf p - 1) hchild
        rw [node_count_node, node_count_node]
        simp only [List.length_cons]
        omega
    · have hclear : bf.testBit p = false := by simpa using hset
      obtain ⟨_, hins⟩ := trie_insert_cons_new ht hp hp1 hp32 hclear k v
      obtain ⟨child1, m, hc1, hm, hex, _, hcount⟩ := ih trie_new v WF_trie_new hk2
      refine ⟨.node (bf ||| (1 <<< p)) v0 (cs.take (rank bf p) ++ child1 :: cs.drop (rank bf p)),
        0, ?_, Nat.zero_le _, ⟨_, rfl⟩, ?_, ?_⟩
      · rw [hins, hc1]
      · intro j h1 _
        obtain ⟨j2, rfl⟩ : ∃ j2, j = j2 + 1 := ⟨j - 1, by omega⟩
        rw [List.take_succ_cons]
        exact node_at_cons_none ht.lt v0 cs hp hp32 hclear _
      · have hm0 : k.length - m = k.length := by
          obtain ⟨n, hn⟩ := hex
          have h0 := (node_at_trie_new hn).1
          have hlen : (k.take m).length = 0 := by rw [h0]; rfl
          rw [List.length_take] at hlen
          omega
        rw [node_count_node, node_count_node, node_count_list_slot, hcount, node_count_trie_new,
          hm0]
        simp only [List.length_cons]
        omega

/-- C17 (lazy node creation).  On every reachable trie, for every key `k` made
of alphabet symbols, `trie_insert(t, k, v)` returns `true` and increases the
total number of nodes by exactly `length(k) - m`, where `m` is the length of the
longest prefix of `k` whose path of child edges exists in `t` before the call;
no node is created when the whole path exists. -/
theorem lazy_node_creation (t : trie_t) (ht : Reachable t) (k : List Int)
    (hk : valid_key k) (v : Int) :
    ∃ t1 m, trie_insert t k v = some (true, t1) ∧ m ≤ k.length ∧
      (∃ n, node_at t (k.take m) = some n) ∧
      (∀ j, m < j → j ≤ k.length → node_at t (k.take j) = none) ∧
      node_count t1 = node_count t + (k.length - m) ∧
      ((∃ n, node_at t k = some n) → node_count t1 = node_count t) := by
  obtain ⟨t1, m, h1, h2, h3, h4, h5⟩ := insert_node_count k t v ht.wf hk
  refine ⟨t1, m, h1, h2, h3, h4, h5, ?_⟩
  rintro ⟨n, hn⟩
  have hm : m = k.length := by
    by_contra hne
    have := h4 k.length (by omega) (le_refl _)
    rw [List.take_length, hn] at this
    cases this
  rw [h5, hm]
  omega

/-- Instance of C17: the insert of `"CAT"` into a new trie. -/
theorem lazy_node_creation_witness :
    Reachable trie_new ∧ valid_key (cstr "CAT") ∧
    ∃ t1 m, trie_insert trie_new (cstr "CAT") 1 = some (true, t1) ∧ m ≤ (cstr "CAT").length ∧
      (∃ n, node_at trie_new ((cstr "CAT").take m) = some n) ∧
      (∀ j, m < j → j ≤ (cstr "CAT").length → node_at trie_new ((cstr "CAT").take j) = none) ∧
      node_count t1 = node_count trie_new + ((cstr "CAT").length - m) ∧
      ((∃ n, node_at trie_new (cstr "CAT") = some n) → node_count t1 = node_count trie_new) :=
  ⟨Reachable.new, by decide,
    lazy_node_creation trie_new Reachable.new (cstr "CAT") (by decide) 1⟩

/-! ## Overwriting a key that is present -/

theorem or_one_of_testBit {bf : Nat} (h : bf.testBit 0 = true) : bf ||| 1 = bf := by
  apply Nat.eq_of_testBit_eq
  intro i
  rw [Nat.testBit_or]
  cases i with
  | zero => rw [h]; rfl
  | succ i =>
    have : Nat.testBit 1 (i + 1) = false := by
      have := Nat.testBit_two_pow_of_ne (n := 0) (m := i + 1) (by omega)
      simpa using this
    rw [this, Bool.or_false]

theorem erase_values_node (bf : Nat) (v : Int) (cs : List trie_t) :
    erase_values (.node bf v cs) = .node bf 0 (erase_values_list cs) := by
  rw [erase_values]

theorem erase_values_list_cons (c : trie_t) (cs : List trie_t) :
    erase_values_list (c :: cs) = erase_values c :: erase_values_list cs := by
  rw [erase_values_list]

theorem erase_values_list_set (x y : trie_t) (hxy : erase_values x = erase_values y) :
    ∀ (cs : List trie_t) (i : Nat), cs[i]? = some y →
    erase_values_list (cs.set i x) = erase_values_list cs := by
  intro cs
  induction cs with
  | nil => intro i h; simp at h
  | cons a cs ih =>
    intro i h
    cases i with
    | zero =>
      simp only [List.getElem?_cons_zero, Option.some.injEq] at h
      subst h
      rw [List.set_cons_zero, erase_values_list_cons, erase_values_list_cons, hxy]
    | succ i =>
      rw [List.getElem?_cons_succ] at h
      rw [List.set_cons_succ, erase_values_list_cons, erase_values_list_cons, ih i h]

theorem last_valid_call_of_mem_valid {calls : List (List Int × Int)} {k : List Int} {v1 : Int}
    (hmem : (k, v1) ∈ calls) (hk : valid_key k) : ∃ w, last_valid_call calls k = some w := by
  unfold last_valid_call
  have hne : calls.filter (fun call => decide (call.1 = k ∧ valid_key call.1)) ≠ [] := by
    intro h
    rw [List.filter_eq_nil_iff] at h
    exact h (k, v1) hmem (by simp [hk])
  cases hl : (calls.filter (fun call => decide (call.1 = k ∧ valid_key call.1))).getLast? with
  | none => exact absurd (List.getLast?_eq_none_iff.mp hl) hne
  | some call => exact ⟨call.2, rfl⟩

theorem overwrite_present_key (k : List Int) : ∀ (t : trie_t) (v2 w out : Int), WF t →
    trie_get t k out = some (true, w) →
    ∃ t1, trie_insert t k v2 = some (true, t1) ∧ node_count t1 = node_count t ∧
      erase_values t1 = erase_values t ∧
      (∀ p : List Int, p ≠ k →
        (node_at t1 p).map trie_t.value = (node_at t p).map trie_t.value) ∧
      (node_at t1 k).map trie_t.value = some v2 := by
  induction k with
  | nil =>
    intro t v2 w out ht hget
    cases t with
    | node bf v0 cs =>
    have hbit : bf.testBit 0 = true := by
      rw [trie_get_nil] at hget
      by_contra h
      rw [if_neg h] at hget
      simp at hget
    refine ⟨.node bf v2 cs, ?_, ?_, ?_, ?_, rfl⟩
    · simp only [trie_insert, trie_t.bitfield, trie_t.children, or_one_of_testBit hbit]
    · rw [node_count_node, node_count_node]
    · rw [erase_values_node, erase_values_node]
    · intro p hp
      cases p with
      | nil => exact absurd rfl hp
      | cons d p =>
        by_cases hd : in_alphabet d
        · obtain ⟨pd, hpd, _, hpd32⟩ := get_bit_pos_nat hd
          rw [node_at_cons _ hpd, node_at_cons _ hpd, subtrie_eq ht.lt v2 cs hpd32,
            subtrie_eq ht.lt v0 cs hpd32]
        · rw [node_at_cons_invalid _ hd, node_at_cons_invalid _ hd]
  | cons c k ih =>
    intro t v2 w out ht hget
    have hc : in_alphabet c := by
      by_contra hc
      rw [trie_get_cons_invalid t hc] at hget
      simp at hget
    obtain ⟨pc, hpc, hpc1, hpc32⟩ := get_bit_pos_nat hc
    cases t with
    | node bf v0 cs =>
    have hset : bf.testBit pc = true := by
      by_contra h
      rw [trie_get_cons ht.lt v0 cs hpc, if_neg h] at hget
      simp at hget
    obtain ⟨child, hchild, hwf, hins⟩ := trie_insert_cons_exists ht hpc hpc1 hpc32 hset k v2
    rw [trie_get_cons ht.lt v0 cs hpc, if_pos hset, hchild] at hget
    obtain ⟨child1, hc1, hcount, herase, hvals, hval⟩ := ih child v2 w out hwf hget
    have hidx := ht.index_lt hpc1 hpc32 hset
    refine ⟨.node bf v0 (cs.set (rank bf pc - 1) child1), ?_, ?_, ?_, ?_, ?_⟩
    · rw [hins, hc1]
    · have hs := node_count_list_set child1 child cs (rank bf pc - 1) hchild
      rw [node_count_node, node_count_node]
      omega
    · rw [erase_values_node, erase_values_node,
        erase_values_list_set child1 child herase cs _ hchild]
    · intro p hp
      cases p with
      | nil => rfl
      | cons d p =>
        by_cases hd : in_alphabet d
        · obtain ⟨pd, hpd, _, hpd32⟩ := get_bit_pos_nat hd
          rw [node_at_cons _ hpd, node_at_cons _ hpd, subtrie_eq ht.lt v0 _ hpd32,
            subtrie_eq ht.lt v0 cs hpd32]
          by_cases hdc : d = c
          · subst hdc
            have hpp : pd = pc := by omega
            subst hpp
            have hp2 : p ≠ k := fun h => hp (by rw [h])
            rw [if_pos hset, if_pos hset, List.getElem?_set_self hidx, hchild]
            exact hvals p hp2
          · have hpne : pc ≠ pd := fun h => hdc (get_bit_pos_injective hc (by rw [hpd, hpc, h]))
            by_cases hsd : bf.testBit pd = true
            · rw [if_pos hsd, if_pos hsd,
                List.getElem?_set_ne (rank_pred_ne hpc32 hpd32 hset hsd hpne)]
            · rw [if_neg hsd, if_neg hsd]
        · rw [node_at_cons_invalid _ hd, node_at_cons_invalid _ hd]
    · rw [node_at_cons _ hpc, subtrie_eq ht.lt v0 _ hpc32, if_pos hset,
        List.getElem?_set_self hidx]
      exact hval

/-- C11 (overwriting does not grow the trie).  For every trie built from a new
trie by a sequence of `trie_insert` calls and every key `k` made of alphabet
symbols that one of these calls inserted, a further `trie_insert(t, k, v2)`
returns `true` and leaves the total number of nodes, the bitfield of every
node and the children array of every node unchanged; only the value stored at
the node of `k` may differ, and it is `v2`. -/
theorem overwrite_keeps_structure (calls : List (List Int × Int)) (bs : List Bool)
    (t : trie_t) (hseq : insert_seq trie_new calls = some (bs, t)) (k : List Int) (v1 : Int)
    (hmem : (k, v1) ∈ calls) (hk : valid_key k) (v2 : Int) :
    ∃ t1, trie_insert t k v2 = some (true, t1) ∧ node_count t1 = node_count t ∧
      erase_values t1 = erase_values t ∧
      (∀ p : List Int, p ≠ k →
        (node_at t1 p).map trie_t.value = (node_at t p).map trie_t.value) ∧
      (node_at t1 k).map trie_t.value = some v2 := by
  obtain ⟨t2, h2, hwf, hget⟩ := insert_seq_spec calls trie_new WF_trie_new
  rw [h2] at hseq
  injection hseq with hseq
  injection hseq with _ ht
  subst ht
  obtain ⟨w, hw⟩ := last_valid_call_of_mem_valid hmem hk
  have hg : trie_get t2 k 0 = some (true, w) := by rw [hget, hw]
  exact overwrite_present_key k t2 v2 w 0 hwf hg

/-- Instance of C11: `"CAT"` written again after the inserts of `"CAT"` and
`"CATS"`. -/
theorem overwrite_keeps_structure_witness :
    insert_seq trie_new [(cstr "CAT", 1), (cstr "CATS", 2)]
      = some ([true, true],
          .node (2 ^ 24) 0 [.node (2 ^ 26) 0 [.node (2 ^ 7) 0 [.node (2 ^ 8 + 1) 1
            [.node 1 2 []]]]]) ∧
    (cstr "CAT", (1 : Int)) ∈ [(cstr "CAT", (1 : Int)), (cstr "CATS", 2)] ∧
    valid_key (cstr "CAT") ∧
    ∃ t1, trie_insert (.node (2 ^ 24) 0 [.node (2 ^ 26) 0 [.node (2 ^ 7) 0 [.node (2 ^ 8 + 1) 1
            [.node 1 2 []]]]]) (cstr "CAT") 7 = some (true, t1) ∧
      node_count t1 = node_count (.node (2 ^ 24) 0 [.node (2 ^ 26) 0 [.node (2 ^ 7) 0
            [.node (2 ^ 8 + 1) 1 [.node 1 2 []]]]]) ∧
      erase_values t1 = erase_values (.node (2 ^ 24) 0 [.node (2 ^ 26) 0 [.node (2 ^ 7) 0
            [.node (2 ^ 8 + 1) 1 [.node 1 2 []]]]]) ∧
      (∀ p : List Int, p ≠ cstr "CAT" →
        (node_at t1 p).map trie_t.value
          = (node_at (.node (2 ^ 24) 0 [.node (2 ^ 26) 0 [.node (2 ^ 7) 0
            [.node (2 ^ 8 + 1) 1 [.node 1 2 []]]]]) p).map trie_t.value) ∧
      (node_at t1 (cstr "CAT")).map trie_t.value = some 7 :=
  ⟨rfl, by decide, by decide,
    overwrite_keeps_structure [(cstr "CAT", 1), (cstr "CATS", 2)] [true, true] _ rfl
      (cstr "CAT") 1 (by decide) (by decide) 7⟩

end Trie

namespace Sonnets

/-! ## Reads of a string -/

theorem char_at_natCast (before : Int) (s : List Int) (i : Nat) :
    char_at before s (i : Int) = s.getD i 0 := by
  simp [char_at]

theorem getD_eq_iff (s : List Int) (i : Nat) {c : Int} (hc : c ≠ 0) :
    s.getD i 0 = c ↔ s[i]? = some c := by
  rw [List.getD_eq_getElem?_getD]
  cases h : s[i]? with
  | none => simp [Ne.symm hc]
  | some x => simp

/-! ## `strrhyme` -/

theorem vowel_loop_vowels (c : Int) :
    vowel_loop c (vowels.take NUM_OF_VOWELS) = true
      ↔ c = 65 ∨ c = 69 ∨ c = 73 ∨ c = 79 ∨ c = 85 := by
  simp only [vowels, NUM_OF_VOWELS, List.take, vowel_loop]
  by_cases h1 : c = 65
  · simp [h1]
  by_cases h2 : c = 69
  · simp [h2]
  by_cases h3 : c = 73
  · simp [h3]
  by_cases h4 : c = 79
  · simp [h4]
  by_cases h5 : c = 85
  · simp [h5]
  simp [h1, h2, h3, h4, h5]

theorem is_phoneme_vowel_iff (before : Int) (s : List Int) {i : Nat} (hi : 1 ≤ i) :
    is_phoneme_vowel before s i = true ↔ rhyme_start s i := by
  have hcast : (i : Int) - 1 = ((i - 1 : Nat) : Int) := by omega
  unfold is_phoneme_vowel rhyme_start
  rw [hcast, char_at_natCast, char_at_natCast]
  by_cases h : s.getD (i - 1) 0 = 32
  · rw [if_pos h, vowel_loop_vowels, getD_eq_iff s i (by decide), getD_eq_iff s i (by decide),
      getD_eq_iff s i (by decide), getD_eq_iff s i (by decide), getD_eq_iff s i (by decide)]
    have h2 := (getD_eq_iff s (i - 1) (show (32 : Int) ≠ 0 by decide)).mp h
    constructor
    · intro hv; exact ⟨hi, h2, hv⟩
    · intro hv; exact hv.2.2
  · rw [if_neg h]
    constructor
    · intro hv; cases hv
    · intro hv
      exact absurd ((getD_eq_iff s (i - 1) (show (32 : Int) ≠ 0 by decide)).mpr hv.2.1) h

theorem strrhyme_loop_spec (before : Int) (s : List Int) : ∀ n : Nat,
    strrhyme_loop before s n ≤ n ∧
    (strrhyme_loop before s n = 0 ∨
      is_phoneme_vowel before s (strrhyme_loop before s n) = true) ∧
    ∀ i, strrhyme_loop before s n < i → i ≤ n → is_phoneme_vowel before s i = false := by
  intro n
  induction n with
  | zero =>
    refine ⟨le_refl _, Or.inl rfl, ?_⟩
    intro i h1 h2
    simp only [strrhyme_loop] at h1
    omega
  | succ n ih =>
    obtain ⟨h1, h2, h3⟩ := ih
    by_cases hv : is_phoneme_vowel before s (n + 1) = true
    · have e : strrhyme_loop before s (n + 1) = n + 1 := by
        simp only [strrhyme_loop, hv, if_true]
      rw [e]
      refine ⟨le_refl _, Or.inr hv, ?_⟩
      intro i h4 h5
      omega
    · have e : strrhyme_loop before s (n + 1) = strrhyme_loop before s n := by
        simp only [strrhyme_loop, hv, if_false]
        rfl
      rw [e]
      refine ⟨by omega, h2, ?_⟩
      intro i h4 h5
      by_cases h6 : i = n + 1
      · rw [h6]; simpa using hv
      · exact h3 i h4 (by omega)

theorem rhyme_start_lt {s : List Int} {i : Nat} (h : rhyme_start s i) : i < s.length := by
  obtain ⟨_, _, h3⟩ := h
  by_contra hlt
  have hnone : s[i]? = none := List.getElem?_eq_none (by omega)
  rw [hnone] at h3
  simp at h3

/-- C20 (`strrhyme` returns the suffix that starts at the last phoneme vowel).
For every string `s`, the pointer returned by `strrhyme(s)` is at the largest
index `i ≥ 1` such that `s[i-1]` is a space and `s[i]` is one of `A`, `E`, `I`,
`O`, `U`; if there is no such index it is `s` itself, index 0. -/
theorem strrhyme_last_phoneme_vowel (before : Int) (s : List Int) :
    strrhyme before s ≤ s.length ∧
    (∀ i, rhyme_start s i → i ≤ strrhyme before s) ∧
    ((∃ i, rhyme_start s i) → rhyme_start s (strrhyme before s)) ∧
    ((¬ ∃ i, rhyme_start s i) → strrhyme before s = 0) := by
  obtain ⟨h1, h2, h3⟩ := strrhyme_loop_spec before s s.length
  have hmax : ∀ i, rhyme_start s i → i ≤ strrhyme before s := by
    intro i hi
    by_contra hlt
    have hf := h3 i (by unfold strrhyme at hlt; omega) (le_of_lt (rhyme_start_lt hi))
    rw [(is_phoneme_vowel_iff before s hi.1).mpr hi] at hf
    cases hf
  have hzero : strrhyme before s ≠ 0 → rhyme_start s (strrhyme before s) := by
    intro hne
    rcases h2 with h2 | h2
    · exact absurd h2 hne
    · exact (is_phoneme_vowel_iff before s (Nat.one_le_iff_ne_zero.mpr hne)).mp h2
  refine ⟨h1, hmax, ?_, ?_⟩
  · rintro ⟨i, hi⟩
    apply hzero
    have := hmax i hi
    have := hi.1
    omega
  · intro hno
    by_contra hne
    exact hno ⟨_, hzero hne⟩

/-! ## `lastwordtok` -/

theorem isalpha_space : isalpha 32 = false := by decide

theorem isalpha_nul : isalpha 0 = false := by decide

theorem last_alpha_loop_spec : ∀ (rest : List Int) (i pos : Int),
    (last_alpha_loop rest i pos = pos ∧ ∀ c ∈ rest, isalpha c = false) ∨
    (∃ j : Nat, last_alpha_loop rest i pos = i + (j : Int) ∧
      (∃ c, rest[j]? = some c ∧ isalpha c = true) ∧
      ∀ (m : Nat) (d : Int), j < m → rest[m]? = some d → isalpha d = false) := by
  intro rest
  induction rest with
  | nil =>
    intro i pos
    exact Or.inl ⟨rfl, fun c hc => by cases hc⟩
  | cons c rest ih =>
    intro i pos
    rw [last_alpha_loop]
    rcases ih (i + 1) (if isalpha c = true then i else pos) with ⟨h1, h2⟩ | ⟨j, h1, h2, h3⟩
    · by_cases hc : isalpha c = true
      · right
        refine ⟨0, ?_, ⟨c, List.getElem?_cons_zero, hc⟩, ?_⟩
        · rw [h1, if_pos hc]; simp
        · intro m d hm hd
          obtain ⟨m2, rfl⟩ : ∃ m2, m = m2 + 1 := ⟨m - 1, by omega⟩
          rw [List.getElem?_cons_succ] at hd
          exact h2 d (List.getElem?_mem hd)
      · left
        refine ⟨by rw [h1, if_neg hc], ?_⟩
        intro x hx
        rcases List.mem_cons.mp hx with hx | hx
        · rw [hx]; simpa using hc
        · exact h2 x hx
    · right
      refine ⟨j + 1, ?_, ?_, ?_⟩
      · rw [h1]; push_cast; ring
      · simpa using h2
      · intro m d hm hd
        obtain ⟨m2, rfl⟩ : ∃ m2, m = m2 + 1 := ⟨m - 1, by omega⟩
        rw [List.getElem?_cons_succ] at hd
        exact h3 m2 d (by omega) hd

theorem back_to_space_spec (before : Int) (line : List Int) : ∀ n : Nat,
    -1 ≤ back_to_space before line n ∧
    (back_to_space before line n ≤ (n : Int) - 2 ∨ back_to_space before line n = -1) ∧
    ∀ i : Nat, back_to_space before line n < (i : Int) → (i : Int) ≤ (n : Int) - 2 →
      line.getD i 0 ≠ 32 := by
  intro n
  induction n with
  | zero =>
    refine ⟨le_refl _, Or.inr rfl, ?_⟩
    intro i _ h2
    simp at h2
    omega
  | succ n ih =>
    obtain ⟨h1, h2, h3⟩ := ih
    by_cases hc : char_at before line ((n : Int) - 1) ≠ 32
    · have e : back_to_space before line (n + 1) = back_to_space before line n := by
        rw [back_to_space, if_pos hc]
      rw [e]
      refine ⟨h1, ?_, ?_⟩
      · rcases h2 with h2 | h2
        · left; push_cast; omega
        · right; exact h2
      · intro i hi1 hi2
        push_cast at hi2
        by_cases hi3 : (i : Int) ≤ (n : Int) - 2
        · exact h3 i hi1 hi3
        · have hin : (n : Int) - 1 = (i : Int) := by omega
          rw [hin, char_at_natCast] at hc
          exact hc
    · have e : back_to_space before line (n + 1) = (n : Int) - 1 := by
        rw [back_to_space, if_neg hc]
      rw [e]
      refine ⟨by omega, Or.inl (by push_cast; omega), ?_⟩
      intro i hi1 hi2
      push_cast at hi2
      omega

theorem skip_to_alpha_spec (before : Int) (line : List Int) (L : Nat)
    (hL : isalpha (line.getD L 0) = true) : ∀ (fuel : Nat) (pos : Int), -1 ≤ pos →
    pos < (L : Int) → (L : Int) - pos ≤ (fuel : Int) →
    ∃ pos2 : Nat, skip_to_alpha before line fuel pos = some (pos2 : Int) ∧
      pos < (pos2 : Int) ∧ pos2 ≤ L ∧ isalpha (line.getD pos2 0) = true := by
  intro fuel
  induction fuel with
  | zero =>
    intro pos _ h2 h3
    simp at h3
    omega
  | succ fuel ih =>
    intro pos h1 h2 h3
    have hcast : pos + 1 = (((pos + 1).toNat : Nat) : Int) := by omega
    by_cases ha : isalpha (char_at before line (pos + 1)) = true
    · refine ⟨(pos + 1).toNat, ?_, by omega, by omega, ?_⟩
      · rw [skip_to_alpha, if_pos ha, ← hcast]
      · rw [hcast, char_at_natCast] at ha
        exact ha
    · have hne : pos + 1 ≠ (L : Int) := by
        intro h
        rw [h, char_at_natCast] at ha
        exact ha hL
      obtain ⟨pos2, e, h4, h5, h6⟩ := ih (pos + 1) (by omega) (by omega)
        (by push_cast at h3; omega)
      refine ⟨pos2, ?_, by omega, h5, h6⟩
      rw [skip_to_alpha, if_neg ha, e]

theorem back_to_space_is_space (before : Int) (line : List Int) : ∀ n : Nat,
    0 ≤ back_to_space before line n →
    line.getD (back_to_space before line n).toNat 0 = 32 := by
  intro n
  induction n with
  | zero =>
    intro h
    simp only [back_to_space] at h
    omega
  | succ n ih =>
    by_cases hc : char_at before line ((n : Int) - 1) ≠ 32
    · have e : back_to_space before line (n + 1) = back_to_space before line n := by
        rw [back_to_space, if_pos hc]
      rw [e]
      exact ih
    · have e : back_to_space before line (n + 1) = (n : Int) - 1 := by
        rw [back_to_space, if_neg hc]
      rw [e]
      intro h
      have hcast : (n : Int) - 1 = ((((n : Int) - 1).toNat : Nat) : Int) := by omega
      rw [hcast, char_at_natCast] at hc
      simpa using hc

theorem skip_to_alpha_first (before : Int) (line : List Int) : ∀ (fuel : Nat) (pos pos2 : Int),
    -1 ≤ pos → skip_to_alpha before line fuel pos = some pos2 →
    ∀ i : Nat, pos < (i : Int) → (i : Int) < pos2 → isalpha (line.getD i 0) = false := by
  intro fuel
  induction fuel with
  | zero =>
    intro pos pos2 _ h
    simp [skip_to_alpha] at h
  | succ fuel ih =>
    intro pos pos2 h1 h i hi1 hi2
    by_cases ha : isalpha (char_at before line (pos + 1)) = true
    · rw [skip_to_alpha, if_pos ha] at h
      injection h with h
      omega
    · rw [skip_to_alpha, if_neg ha] at h
      by_cases hi3 : (i : Int) = pos + 1
      · rw [← hi3, char_at_natCast] at ha
        simpa using ha
      · exact ih (pos + 1) pos2 (by omega) h i (by omega) hi2

theorem lastwordtok_null {before : Int} {line : List Int}
    (h : last_alpha_loop line 0 (-1) = -1) : lastwordtok before line = some (none, line) := by
  simp only [lastwordtok, h, if_true]

theorem lastwordtok_word {before : Int} {line : List Int} {L pos2 : Nat}
    (h : last_alpha_loop line 0 (-1) = (L : Int))
    (h2 : skip_to_alpha before (line.take (L + 1))
        (((line.take (L + 1)).length : Int)
          - back_to_space before (line.take (L + 1)) (L + 1)).toNat
        (back_to_space before (line.take (L + 1)) (L + 1)) = some (pos2 : Int)) :
    lastwordtok before line = some (some pos2, line.take (L + 1)) := by
  have hne : ¬ ((L : Int) = -1) := by omega
  have hcast : ((L : Int) + 1).toNat = L + 1 := by omega
  simp only [lastwordtok, h, hne, if_false, hcast, h2, Int.toNat_ofNat]

/-- C19 (`lastwordtok` returns the last word of a line or `NULL`).  For every
line, whatever byte precedes it in memory, `lastwordtok` returns; it returns
`NULL` if and only if the line has no alphabetic character, and then leaves
the line as it was.  Otherwise it truncates the line right after its last
alphabetic character, at index `L`, and returns the position of the last
word: with `j` the index of the last space before `L`, or -1 when there is
none, the position is that of the first alphabetic character after `j`.  So
the word starts with an alphabetic character, ends at the last alphabetic
character and has no space. -/
theorem lastwordtok_last_word (before : Int) (line : List Int) :
    ∃ r, lastwordtok before line = some r ∧
      (r.1 = none ↔ ∀ c ∈ line, isalpha c = false) ∧
      (r.1 = none → r.2 = line) ∧
      (∀ pos, r.1 = some pos →
        ∃ (L : Nat) (c : Int), (line)[L]? = some c ∧ isalpha c = true ∧
          (∀ (m : Nat) (d : Int), L < m → (line)[m]? = some d → isalpha d = false) ∧
          r.2 = line.take (L + 1) ∧ pos ≤ L ∧
          (∃ a, (r.2.drop pos).head? = some a ∧ isalpha a = true) ∧
          (r.2.drop pos).getLast? = some c ∧
          (32 : Int) ∉ r.2.drop pos ∧
          (∃ j : Int, -1 ≤ j ∧ j < (pos : Int) ∧
            (0 ≤ j → (line)[j.toNat]? = some 32) ∧
            (∀ i : Nat, j < (i : Int) → i ≤ L → (line)[i]? ≠ some 32) ∧
            (∀ (i : Nat) (d : Int), j < (i : Int) → i < pos → (line)[i]? = some d →
              isalpha d = false))) := by
  rcases last_alpha_loop_spec line 0 (-1) with ⟨h1, h2⟩ | ⟨L, h1, ⟨c, hc1, hc2⟩, h3⟩
  · refine ⟨(none, line), lastwordtok_null h1, ?_, fun _ => rfl, ?_⟩
    · exact ⟨fun _ => h2, fun _ => rfl⟩
    · intro pos h
      cases h
  · have hlt : L < line.length := by
      by_contra h
      rw [List.getElem?_eq_none (by omega)] at hc1
      cases hc1
    have hpos : last_alpha_loop line 0 (-1) = (L : Int) := by rw [h1]; simp
    have hlen1 : (line.take (L + 1)).length = L + 1 := by rw [List.length_take]; omega
    have htake : ∀ i : Nat, i ≤ L → (line.take (L + 1))[i]? = (line)[i]? := by
      intro i hi
      exact List.getElem?_take_of_lt (by omega)
    have hcL : (line.take (L + 1))[L]? = some c := by
      rw [htake L (le_refl _)]; exact hc1
    have hgetL : (line.take (L + 1)).getD L 0 = c := by
      rw [List.getD_eq_getElem?_getD, hcL]; rfl
    obtain ⟨b1, b2, b3⟩ := back_to_space_spec before (line.take (L + 1)) (L + 1)
    have b4 := back_to_space_is_space before (line.take (L + 1)) (L + 1)
    have hb : back_to_space before (line.take (L + 1)) (L + 1) < (L : Int) := by
      rcases b2 with b2 | b2
      · push_cast at b2; omega
      · omega
    obtain ⟨pos2, e, p1, p2, p3⟩ := skip_to_alpha_spec before (line.take (L + 1)) L
      (by rw [hgetL]; exact hc2)
      (((line.take (L + 1)).length : Int)
        - back_to_space before (line.take (L + 1)) (L + 1)).toNat
      (back_to_space before (line.take (L + 1)) (L + 1)) b1 hb (by rw [hlen1]; omega)
    have p4 := skip_to_alpha_first before (line.take (L + 1)) _ _ _ b1 e
    have hnosp : ∀ i : Nat, back_to_space before (line.take (L + 1)) (L + 1) < (i : Int) →
        i ≤ L → (line)[i]? ≠ some 32 := by
      intro i hi1 hi2 hsp
      by_cases hlast : i = L
      · rw [hlast, hc1] at hsp
        injection hsp with hsp
        rw [hsp, isalpha_space] at hc2
        cases hc2
      · have := b3 i hi1 (by push_cast; omega)
        rw [List.getD_eq_getElem?_getD, htake i hi2, hsp] at this
        exact this rfl
    refine ⟨(some pos2, line.take (L + 1)), lastwordtok_word hpos e, ?_, ?_, ?_⟩
    · constructor
      · intro h; cases h
      · intro h
        rw [h c (List.getElem?_mem hc1)] at hc2
        cases hc2
    · intro h; cases h
    · intro pos hp
      simp only [Option.some.injEq] at hp
      subst hp
      dsimp only
      refine ⟨L, c, hc1, hc2, h3, rfl, p2, ?_, ?_, ?_, ?_⟩
      · have hlt2 : pos2 < (line.take (L + 1)).length := by omega
        obtain ⟨a, ha⟩ : ∃ a, (line.take (L + 1))[pos2]? = some a :=
          ⟨_, List.getElem?_eq_getElem hlt2⟩
        refine ⟨a, ?_, ?_⟩
        · rw [List.head?_drop, ha]
        · rw [List.getD_eq_getElem?_getD, ha] at p3
          exact p3
      · rw [List.getLast?_drop, if_neg (by rw [hlen1]; omega), List.getLast?_eq_getElem?, hlen1]
        exact hcL
      · intro hmem
        obtain ⟨m, hm⟩ := List.getElem?_of_mem hmem
        rw [List.getElem?_drop] at hm
        have hidx : pos2 + m ≤ L := by
          by_contra h
          rw [List.getElem?_eq_none (by omega)] at hm
          cases hm
        rw [htake _ hidx] at hm
        exact hnosp (pos2 + m) (by push_cast; omega) hidx hm
      · refine ⟨back_to_space before (line.take (L + 1)) (L + 1), b1, p1, ?_, hnosp, ?_⟩
        · intro hj
          have h32 := b4 hj
          rw [getD_eq_iff _ _ (show (32 : Int) ≠ 0 by decide), htake _ (by omega)] at h32
          exact h32
        · intro i d hi1 hi2 hd
          have := p4 i hi1 (by exact_mod_cast hi2)
          rw [List.getD_eq_getElem?_getD, htake i (by omega), hd] at this
          exact this

/-- A line of one word, where line 19 reads `line[-1]`: the result is the same
when the byte before the line is a space and when it is not. -/
theorem lastwordtok_one_word :
    lastwordtok 32 (cstr "hello") = some (some 0, cstr "hello") ∧
    lastwordtok 120 (cstr "hello") = some (some 0, cstr "hello") := by
  decide

/-- The last word of a line of verse, and a line without a word. -/
theorem lastwordtok_verse :
    lastwordtok 0 (cstr "  shall I compare thee to a summer day?")
      = some (some 35, cstr "  shall I compare thee to a summer day") ∧
    lastwordtok 0 (cstr " 12 ") = some (none, cstr " 12 ") := by
  decide

/-- The rhyme of a phoneme string starts at its last vowel phoneme. -/
theorem strrhyme_phonemes :
    strrhyme 0 (cstr "HH AH0 L OW1") = 9 ∧ strrhyme 0 (cstr "B") = 0 := by
  decide

end Sonnets
